import Mathlib

/-!
# CHIP-8 interpreter (`src/chip8.cpp`): embedding and verified properties

The interpreter lives in `main`.  Its machine state is the set of local
variables `mem`, `stack`, `V`, `I`, `ST`, `DT`, `PC`, `waiting_for_key` and
`fb`; the event loop updates them in the `SDL_USEREVENT` (tick) and
`SDL_KEYUP` handlers.

Conventions of the embedding:

* machine integers are `Nat`; a store into a `uint8_t` is written `% 256`
  (or through `sub8` for a subtraction), a `uint16_t` store `% 65536`,
  and `& 0xfff` is kept as `&&& 0xfff`;
* the arrays `mem`, `V` and `fb` are functions of their index; an array
  access whose index the source does not mask (`mem[PC]`, `mem[I]`,
  `keys[V[x]]`) is checked and yields a `Fault` when out of range, as does
  `stack.top()` on an empty stack;
* the `if`/`else if` chain over `op` is split into `decode` (the chain of
  conditions with the operand extraction of each branch) and `execInstr`
  (the branch bodies); `exec` composes them;
* `rnd()` and `SDL_GetKeyboardState` are inputs, collected in `Host`.
-/

namespace Chip8

/-! ## Machine state -/

/-- Undefined behaviour of the source made explicit. -/
inductive Fault where
  | stackEmpty
  | memIndex (a : Nat)
  | keysIndex (k : Nat)
  deriving DecidableEq

/-- How an iteration of the instruction burst ends: falls through to the
next iteration, or leaves the loop (`break`). -/
inductive Flow where
  | next
  | brk
  deriving DecidableEq

/-- Local variables of `main` that make up the machine (lines 104-114). -/
structure State where
  mem : Nat → Nat
  stack : List Nat
  V : Nat → Nat
  I : Nat
  ST : Nat
  DT : Nat
  PC : Nat
  waiting_for_key : Bool
  fb : Nat → Nat → Bool

/-- What the host supplies to one instruction: the value `rnd()` would
return and the array returned by `SDL_GetKeyboardState`. -/
structure Host where
  rnd : Nat
  state : Nat → Nat

/-- Array store `a[i] = v`. -/
def upd {α : Type} (a : Nat → α) (i : Nat) (v : α) : Nat → α :=
  fun j => if j = i then v else a j

/-- Array store `a[r][c] = v`. -/
def upd2 {α : Type} (a : Nat → Nat → α) (r c : Nat) (v : α) : Nat → Nat → α :=
  fun r' c' => if r' = r ∧ c' = c then v else a r' c'

/-- Conversion of the `int` difference `a - b` to `uint8_t`. -/
def sub8 (a b : Nat) : Nat := (((a : Int) - (b : Int)) % 256).toNat

/-- Modelled from the spec: the host key identifiers.  The table `keys`
(lines 10-27) lists SDL2 scancodes by name; the header that gives them their
numbers, `SDL_scancode.h`, is not part of the repository.  The numbers are
those of the USB keyboard usage page, which SDL2 adopts: letters `A`..`Z` are
4..29 and digits `1`..`9` are 30..38. -/
def SDL_SCANCODE_A : Nat := 4
def SDL_SCANCODE_C : Nat := 6
def SDL_SCANCODE_D : Nat := 7
def SDL_SCANCODE_E : Nat := 8
def SDL_SCANCODE_F : Nat := 9
def SDL_SCANCODE_Q : Nat := 20
def SDL_SCANCODE_R : Nat := 21
def SDL_SCANCODE_S : Nat := 22
def SDL_SCANCODE_V : Nat := 25
def SDL_SCANCODE_W : Nat := 26
def SDL_SCANCODE_X : Nat := 27
def SDL_SCANCODE_Z : Nat := 29
def SDL_SCANCODE_1 : Nat := 30
def SDL_SCANCODE_2 : Nat := 31
def SDL_SCANCODE_3 : Nat := 32
def SDL_SCANCODE_4 : Nat := 33

/-- The key table (lines 10-27): position = logical key code. -/
def keys : List Nat :=
  [ SDL_SCANCODE_X, SDL_SCANCODE_1, SDL_SCANCODE_2, SDL_SCANCODE_3,
    SDL_SCANCODE_Q, SDL_SCANCODE_W, SDL_SCANCODE_E, SDL_SCANCODE_A,
    SDL_SCANCODE_S, SDL_SCANCODE_D, SDL_SCANCODE_Z, SDL_SCANCODE_C,
    SDL_SCANCODE_4, SDL_SCANCODE_R, SDL_SCANCODE_F, SDL_SCANCODE_V ]

/-- Line 206: `PC = (PC + 2) & 0xfff`. -/
def advance (s : State) : State := { s with PC := (s.PC + 2) &&& 0xfff }

/-- Line 207: `PC = (PC + 4) & 0xfff`. -/
def advance2 (s : State) : State := { s with PC := (s.PC + 4) &&& 0xfff }

/-! ## Decoding: the conditions of the `if` chain, lines 241-435 -/

/-- One constructor per branch of the chain, carrying the operands the
branch extracts from `op`; `nop` is the final `else`. -/
inductive Instr where
  | cls
  | ret
  | jp (addr : Nat)
  | call (addr : Nat)
  | se (x byte : Nat)
  | sne (x byte : Nat)
  | sev (x y : Nat)
  | ld (x byte : Nat)
  | addb (x byte : Nat)
  | mov (x y : Nat)
  | or (x y : Nat)
  | and (x y : Nat)
  | xor (x y : Nat)
  | add (x y : Nat)
  | sub (x y : Nat)
  | shr (x : Nat)
  | subn (x y : Nat)
  | shl (x : Nat)
  | snev (x y : Nat)
  | ldi (addr : Nat)
  | jpv (addr : Nat)
  | rand (x byte : Nat)
  | drw (x y nibble : Nat)
  | skp (x : Nat)
  | sknp (x : Nat)
  | getdt (x : Nat)
  | key
  | setdt (x : Nat)
  | setst (x : Nat)
  | addi (x : Nat)
  | font (x : Nat)
  | bcd (x : Nat)
  | store (x : Nat)
  | load (x : Nat)
  | nop
  deriving DecidableEq

/-- The chain of conditions on `op`, in source order. -/
def decode (op : Nat) : Instr :=
  let x := (op &&& 0xf00) >>> 8
  let y := (op &&& 0xf0) >>> 4
  let byte := op &&& 0xff
  let addr := op &&& 0xfff
  let nibble := op &&& 0xf
  if op = 0x00e0 then .cls
  else if op = 0x00ee then .ret
  else if op &&& 0xf000 = 0x1000 then .jp addr
  else if op &&& 0xf000 = 0x2000 then .call addr
  else if op &&& 0xf000 = 0x3000 then .se x byte
  else if op &&& 0xf000 = 0x4000 then .sne x byte
  else if op &&& 0xf00f = 0x5000 then .sev x y
  else if op &&& 0xf000 = 0x6000 then .ld x byte
  else if op &&& 0xf000 = 0x7000 then .addb x byte
  else if op &&& 0xf00f = 0x8000 then .mov x y
  else if op &&& 0xf00f = 0x8001 then .or x y
  else if op &&& 0xf00f = 0x8002 then .and x y
  else if op &&& 0xf00f = 0x8003 then .xor x y
  else if op &&& 0xf00f = 0x8004 then .add x y
  else if op &&& 0xf00f = 0x8005 then .sub x y
  else if op &&& 0xf00f = 0x8006 then .shr x
  else if op &&& 0xf00f = 0x8007 then .subn x y
  else if op &&& 0xf00f = 0x800e then .shl x
  else if op &&& 0xf00f = 0x9000 then .snev x y
  else if op &&& 0xf000 = 0xa000 then .ldi addr
  else if op &&& 0xf000 = 0xb000 then .jpv addr
  else if op &&& 0xf000 = 0xc000 then .rand x byte
  else if op &&& 0xf000 = 0xd000 then .drw x y nibble
  else if op &&& 0xf0ff = 0xe09e then .skp x
  else if op &&& 0xf0ff = 0xe0a1 then .sknp x
  else if op &&& 0xf0ff = 0xf007 then .getdt x
  else if op &&& 0xf0ff = 0xf00a then .key
  else if op &&& 0xf0ff = 0xf015 then .setdt x
  else if op &&& 0xf0ff = 0xf018 then .setst x
  else if op &&& 0xf0ff = 0xf01e then .addi x
  else if op &&& 0xf0ff = 0xf029 then .font x
  else if op &&& 0xf0ff = 0xf033 then .bcd x
  else if op &&& 0xf0ff = 0xf055 then .store x
  else if op &&& 0xf0ff = 0xf065 then .load x
  else .nop

/-! ## The branch bodies -/

/-- Lines 367: the sprite byte of row `n`. -/
def spriteRow (s : State) (n : Nat) : Nat := s.mem ((s.I + n) &&& 0xfff)

/-- Line 369: `sp_px = ((row >> (7 - b)) & 1) != 0`. -/
def sp_px (s : State) (n b : Nat) : Bool := ((spriteRow s n >>> (7 - b)) &&& 1) != 0

/-- Body of the inner loop of `Dxyn`, lines 369-374. -/
def drawPixel (x y n b : Nat) (s : State) : State :=
  let r := (n + s.V y) % 32
  let c := (b + s.V x) % 64
  let fb_px := s.fb r c
  let s1 := if sp_px s n b && fb_px then { s with V := upd s.V 0xf 1 } else s
  { s1 with fb := upd2 s1.fb r c (fb_px ^^ sp_px s n b) }

/-- Inner loop of `Dxyn`, line 368: `for (b = 0; b < 8; b++)`. -/
def drawRow (x y n : Nat) (s : State) : State :=
  (List.range 8).foldl (fun s b => drawPixel x y n b s) s

/-- Lines 365-376 of the `Dxyn` branch: clear `VF`, then the two loops. -/
def draw (x y nibble : Nat) (s : State) : State :=
  (List.range nibble).foldl (fun s n => drawRow x y n s) { s with V := upd s.V 0xf 0 }

/-- Loop of `Fx55`, lines 425-427. -/
def storeRegs (x : Nat) (s : State) : State :=
  (List.range (x + 1)).foldl (fun s i => { s with mem := upd s.mem ((s.I + i) &&& 0xfff) (s.V i) }) s

/-- Loop of `Fx65`, lines 431-433. -/
def loadRegs (x : Nat) (s : State) : State :=
  (List.range (x + 1)).foldl (fun s i => { s with V := upd s.V i (s.mem ((s.I + i) &&& 0xfff)) }) s

/-- The body of each branch of the chain. -/
def execInstr (h : Host) : Instr → State → Except Fault (Flow × State)
  | .cls, s => .ok (.next, advance { s with fb := fun _ _ => false })
  | .ret, s =>
    match s.stack with
    | [] => .error .stackEmpty
    | top :: rest => .ok (.next, { s with PC := top, stack := rest })
  | .jp addr, s => .ok (.next, { s with PC := addr })
  | .call addr, s =>
    let s1 := advance s
    .ok (.next, { s1 with stack := s1.PC :: s1.stack, PC := addr })
  | .se x byte, s => .ok (.next, if s.V x = byte then advance2 s else advance s)
  | .sne x byte, s => .ok (.next, if s.V x ≠ byte then advance2 s else advance s)
  | .sev x y, s => .ok (.next, if s.V x = s.V y then advance2 s else advance s)
  | .ld x byte, s => .ok (.next, advance { s with V := upd s.V x byte })
  | .addb x byte, s => .ok (.next, advance { s with V := upd s.V x ((s.V x + byte) % 256) })
  | .mov x y, s => .ok (.next, advance { s with V := upd s.V x (s.V y) })
  | .or x y, s => .ok (.next, advance { s with V := upd s.V x ((s.V x ||| s.V y) % 256) })
  | .and x y, s => .ok (.next, advance { s with V := upd s.V x ((s.V x &&& s.V y) % 256) })
  | .xor x y, s => .ok (.next, advance { s with V := upd s.V x ((s.V x ^^^ s.V y) % 256) })
  | .add x y, s =>
    let V1 := upd s.V x ((s.V x + s.V y) % 256)
    let V2 := upd V1 0xf (if V1 x < V1 y then 1 else 0)
    .ok (.next, advance { s with V := V2 })
  | .sub x y, s =>
    let V1 := upd s.V 0xf (if s.V x > s.V y then 1 else 0)
    let V2 := upd V1 x (sub8 (V1 x) (V1 y))
    .ok (.next, advance { s with V := V2 })
  | .shr x, s =>
    let V1 := upd s.V 0xf (s.V x &&& 1)
    let V2 := upd V1 x (V1 x >>> 1)
    .ok (.next, advance { s with V := V2 })
  | .subn x y, s =>
    let V1 := upd s.V 0xf (if s.V y > s.V x then 1 else 0)
    let V2 := upd V1 x (sub8 (V1 y) (V1 x))
    .ok (.next, advance { s with V := V2 })
  | .shl x, s =>
    let V1 := upd s.V 0xf (s.V x >>> 7)
    let V2 := upd V1 x ((V1 x <<< 1) % 256)
    .ok (.next, advance { s with V := V2 })
  | .snev x y, s => .ok (.next, if s.V x ≠ s.V y then advance2 s else advance s)
  | .ldi addr, s => .ok (.next, advance { s with I := addr })
  | .jpv addr, s => .ok (.next, { s with PC := (s.V 0 + addr) &&& 0xfff })
  | .rand x byte, s => .ok (.next, advance { s with V := upd s.V x ((h.rnd % 256) &&& byte) })
  | .drw x y nibble, s => .ok (.next, advance (draw x y nibble s))
  | .skp x, s =>
    match keys[s.V x]? with
    | none => .error (.keysIndex (s.V x))
    | some sc => .ok (.next, if h.state sc = 1 then advance2 s else advance s)
  | .sknp x, s =>
    match keys[s.V x]? with
    | none => .error (.keysIndex (s.V x))
    | some sc => .ok (.next, if h.state sc = 0 then advance2 s else advance s)
  | .getdt x, s => .ok (.next, advance { s with V := upd s.V x s.DT })
  | .key, s => .ok (.brk, { s with waiting_for_key := true })
  | .setdt x, s => .ok (.next, advance { s with DT := s.V x })
  | .setst x, s => .ok (.next, advance { s with ST := s.V x })
  | .addi x, s => .ok (.next, advance { s with I := (s.I + s.V x) &&& 0xfff })
  | .font x, s => .ok (.next, advance { s with I := (s.V x * 5) &&& 0xfff })
  | .bcd x, s =>
    if s.I < 0x1000 then
      let m1 := upd s.mem s.I (s.V x / 100)
      let m2 := upd m1 ((s.I + 1) &&& 0xfff) ((s.V x % 100) / 10)
      let m3 := upd m2 ((s.I + 2) &&& 0xfff) (s.V x % 10)
      .ok (.next, advance { s with mem := m3 })
    else .error (.memIndex s.I)
  | .store x, s => .ok (.next, advance (storeRegs x s))
  | .load x, s => .ok (.next, advance (loadRegs x s))
  | .nop, s => .ok (.next, advance s)

/-- One pass through the chain for a given `op`. -/
def exec (h : Host) (op : Nat) (s : State) : Except Fault (Flow × State) :=
  execInstr h (decode op) s

/-- Line 240: `op = (mem[PC] << 8) + mem[(PC + 1) & 0xfff]`, a `uint16_t`. -/
def fetch (s : State) : Except Fault Nat :=
  if s.PC < 0x1000 then .ok (((s.mem s.PC <<< 8) + s.mem ((s.PC + 1) &&& 0xfff)) % 65536)
  else .error (.memIndex s.PC)

/-- One iteration of the burst loop: fetch, then the chain. -/
def step (h : Host) (s : State) : Except Fault (Flow × State) :=
  match fetch s with
  | .error e => .error e
  | .ok op => exec h op s

/-- The burst loop, line 239: `left` iterations remain, `n` is the loop
counter; `host n` is what the host supplies to iteration `n`. -/
def burst (host : Nat → Host) : Nat → Nat → State → Except Fault State
  | 0, _, s => .ok s
  | left + 1, n, s =>
    match step (host n) s with
    | .error e => .error e
    | .ok (.brk, s1) => .ok s1
    | .ok (.next, s1) => burst host left (n + 1) s1

/-- Line 102. -/
def insts_per_tick : Nat := 10

/-- Lines 222-234, the timer phase of a tick.  The second component is the
`pause_on` argument of the call to `SDL_PauseAudioDevice`, if one is made. -/
def timers (s : State) : State × Option Nat :=
  let s1 := if s.DT ≠ 0 then { s with DT := s.DT - 1 } else s
  if s1.ST ≠ 0 then
    let s2 := { s1 with ST := s1.ST - 1 }
    if s2.ST = 0 then (s2, some 0) else (s2, none)
  else (s1, some 1)

/-- Outcome of a tick: the audio call made and the machine afterwards. -/
structure TickResult where
  audio : Option Nat
  next : Except Fault State

/-- The `SDL_USEREVENT` case, lines 221-438. -/
def userEvent (host : Nat → Host) (s : State) : TickResult :=
  let t := timers s
  if t.1.waiting_for_key then { audio := t.2, next := .ok t.1 }
  else { audio := t.2, next := burst host insts_per_tick 0 t.1 }

/-- The `SDL_KEYUP` case, lines 479-493. -/
def keyUp (scancode : Nat) (s : State) : Except Fault State :=
  if s.waiting_for_key then
    let key := keys.indexOf scancode
    if key ≠ keys.length then
      if s.PC < 0x1000 then
        let x := s.mem s.PC &&& 0xf
        .ok (advance { s with V := upd s.V x key, waiting_for_key := false })
      else .error (.memIndex s.PC)
    else .ok s
  else .ok s

/-- Tone signals of the audio collaborator. -/
inductive Tone where
  | start
  | stop
  deriving DecidableEq

/-- Meaning of `SDL_PauseAudioDevice(dev, pause_on)`: with `pause_on = 0` the
device plays (its callback `beep` produces the tone), otherwise it is
silent. -/
def toneOf (pause_on : Nat) : Tone := if pause_on = 0 then .start else .stop


/-! ## Concrete inputs used to exercise the theorems -/

/-- A machine just after initialisation with an empty program image. -/
def exState : State :=
  { mem := fun _ => 0, stack := [], V := fun _ => 0, I := 0, ST := 0, DT := 0,
    PC := 0x200, waiting_for_key := false, fb := fun _ _ => false }

/-- A host with no key held whose random source returns 0. -/
def exHost : Host := { rnd := 0, state := fun _ => 0 }

/-! ## The opcode table of the specification -/

/-- The patterns of the opcode table (specification, section 4.2), each as
the pair (mask of its fixed hexadecimal digits, value of those digits): the
pattern `5xy0` is `(0xf00f, 0x5000)`. -/
def opcodeTable : List (Nat × Nat) :=
  [ (0xffff, 0x00e0), (0xffff, 0x00ee), (0xf000, 0x1000), (0xf000, 0x2000),
    (0xf000, 0x3000), (0xf000, 0x4000), (0xf00f, 0x5000), (0xf00f, 0x9000),
    (0xf000, 0x6000), (0xf000, 0x7000),
    (0xf00f, 0x8000), (0xf00f, 0x8001), (0xf00f, 0x8002), (0xf00f, 0x8003),
    (0xf00f, 0x8004), (0xf00f, 0x8005), (0xf00f, 0x8006), (0xf00f, 0x8007),
    (0xf00f, 0x800e),
    (0xf000, 0xa000), (0xf000, 0xb000), (0xf000, 0xc000), (0xf000, 0xd000),
    (0xf0ff, 0xe09e), (0xf0ff, 0xe0a1), (0xf0ff, 0xf007), (0xf0ff, 0xf00a),
    (0xf0ff, 0xf015), (0xf0ff, 0xf018), (0xf0ff, 0xf01e), (0xf0ff, 0xf029),
    (0xf0ff, 0xf033), (0xf0ff, 0xf055), (0xf0ff, 0xf065) ]

/-- Whether `op` matches a pattern of the opcode table. -/
def inOpcodeTable (op : Nat) : Bool := opcodeTable.any fun p => op &&& p.1 == p.2

/-! ## Loop invariants of the sprite draw -/

/-- Displacement of a coordinate read from register `x` when `VF` holds `f`
and held 0 when the draw began: only `VF` itself moves. -/
def sh (x f : Nat) : Nat := if x = 0xf then f else 0

/-- Sprite pixel `(i', b')` is drawn before `(i, b)`. -/
def before (i' b' i b : Nat) : Prop := b' < 8 ∧ (i' < i ∨ (i' = i ∧ b' < b))

/-- Invariant of the draw loops relating `VF` to the pixels cleared so far;
`s0` is the state when the loops are entered and `(i, b)` the next sprite
pixel.  Every framebuffer cell changed so far lies strictly before the cell
about to be drawn, in the order of the unwrapped offsets `(u, w)`. -/
def FlagInv (s0 : State) (x y i b : Nat) (t : State) : Prop :=
  t.mem = s0.mem ∧ t.I = s0.I ∧ t.V 0xf ≤ 1 ∧ (∀ j, j ≠ 0xf → t.V j = s0.V j) ∧
  (t.V 0xf = 1 ↔ ∃ r c, r < 32 ∧ c < 64 ∧ s0.fb r c = true ∧ t.fb r c = false) ∧
  (∀ r c, t.fb r c ≠ s0.fb r c →
    ∃ u w, u ≤ 15 ∧ w ≤ 8 ∧ r = (u + s0.V y) % 32 ∧ c = (w + s0.V x) % 64 ∧
      9 * u + w < 9 * i + b + 9 * sh y (t.V 0xf) + sh x (t.V 0xf))

/-- Invariant of the draw loops while the coordinates stay put: the cells
changed so far are exactly those a set sprite bit has been drawn on. -/
def ImageInv (s0 : State) (x y i b : Nat) (t : State) : Prop :=
  t.mem = s0.mem ∧ t.I = s0.I ∧ t.V x = s0.V x ∧ t.V y = s0.V y ∧
  (∀ r c, t.fb r c ≠ s0.fb r c ↔
    ∃ i' b', before i' b' i b ∧ sp_px s0 i' b' = true ∧
      r = (i' + s0.V y) % 32 ∧ c = (b' + s0.V x) % 64)

/-- Invariant of a redraw over the image `s0.fb` of the same sprite: either a
collision has been flagged, or no set sprite bit has been met yet. -/
def RedrawInv (s0 : State) (x y i b : Nat) (t : State) : Prop :=
  t.mem = s0.mem ∧ t.I = s0.I ∧
  (t.V 0xf = 1 ∨ (t.V x = s0.V x ∧ t.V y = s0.V y ∧ t.fb = s0.fb ∧
    ∀ i' b', before i' b' i b → sp_px s0 i' b' = false))


/-! ## Initial state -/

/-- The machine when the main loop is entered (lines 104-123).  `chars` is
the list of initialisers that `mem` receives from `chars.h`, a file of the
repository that is not among the sources at hand, so it is a parameter; the
array elements without an initialiser are zero.  `image` is the content of the
program file, of which `file.read` copies at most `0xe00` bytes to `0x200`. -/
def initState (chars image : List Nat) : State :=
  { mem := fun a =>
      if 0x200 ≤ a ∧ a - 0x200 < image.length ∧ a - 0x200 < 0xe00
      then image.getD (a - 0x200) 0 % 256 else chars.getD a 0 % 256,
    stack := [], V := fun _ => 0, I := 0, ST := 0, DT := 0, PC := 0x200,
    waiting_for_key := false, fb := fun _ _ => false }

/-! ## Invariants of the address registers -/

/-- The operands that `decode` extracts are within their fields. -/
def Instr.WF : Instr → Prop
  | .jp addr | .call addr | .ldi addr | .jpv addr => addr < 0x1000
  | .se x byte | .sne x byte | .ld x byte | .addb x byte | .rand x byte => x < 16 ∧ byte < 256
  | .sev x y | .mov x y | .or x y | .and x y | .xor x y | .add x y | .sub x y | .subn x y
  | .snev x y => x < 16 ∧ y < 16
  | .drw x y nibble => x < 16 ∧ y < 16 ∧ nibble < 16
  | .shr x | .shl x | .skp x | .sknp x | .getdt x | .setdt x | .setst x | .addi x | .font x
  | .bcd x | .store x | .load x => x < 16
  | .cls | .ret | .key | .nop => True

/-- `PC`, `I` and every return address on the stack are at most `0xFFF`. -/
def AddrInv (s : State) : Prop := s.PC ≤ 0xfff ∧ s.I ≤ 0xfff ∧ ∀ a ∈ s.stack, a ≤ 0xfff

/-- `PC` and every return address on the stack are even. -/
def EvenInv (s : State) : Prop := s.PC % 2 = 0 ∧ ∀ a ∈ s.stack, a % 2 = 0

/-- The instruction does not jump to an odd address: `1nnn` and `2nnn` have an
even `nnn`, `Bnnn` an even `(V0 + nnn) mod 0x1000`; no condition on the other
instructions. -/
def evenJump (s : State) : Instr → Prop
  | .jp addr => addr % 2 = 0
  | .call addr => addr % 2 = 0
  | .jpv addr => ((s.V 0 + addr) % 0x1000) % 2 = 0
  | _ => True

/-- The instruction at `PC` does not jump to an odd address. -/
def evenJumpAt (s : State) : Prop :=
  match fetch s with
  | .ok op => evenJump s (decode op)
  | .error _ => True

/-- No instruction executed by the burst jumps to an odd address. -/
def evenBurst (host : Nat → Host) : Nat → Nat → State → Prop
  | 0, _, _ => True
  | left + 1, n, s =>
    evenJumpAt s ∧
    match step (host n) s with
    | .ok (.next, s1) => evenBurst host left (n + 1) s1
    | _ => True

/-- States reached from the initial state by instruction steps, ticks and
key-release events that execute no jump to an odd address. -/
inductive EvenRun (chars image : List Nat) : State → Prop where
  | init : EvenRun chars image (initState chars image)
  | step (h : Host) (s : State) (f : Flow) (s1 : State) :
      EvenRun chars image s → evenJumpAt s → step h s = .ok (f, s1) → EvenRun chars image s1
  | tick (host : Nat → Host) (s s1 : State) :
      EvenRun chars image s → evenBurst host insts_per_tick 0 (timers s).1 →
      (userEvent host s).next = .ok s1 → EvenRun chars image s1
  | key (scancode : Nat) (s s1 : State) :
      EvenRun chars image s → keyUp scancode s = .ok s1 → EvenRun chars image s1

/-! ## Display conversion -/

/-- Body of the loops of lines 450-464: the four bytes of one pixel. -/
def renderPixel (fb : Nat → Nat → Bool) (pitch row col : Nat) (px : Nat → Nat) : Nat → Nat :=
  if fb row col != false then
    let p0 := upd px (row * pitch + col * 4) 0xff
    let p1 := upd p0 (row * pitch + col * 4 + 1) 0xff
    let p2 := upd p1 (row * pitch + col * 4 + 2) 0xff
    upd p2 (row * pitch + col * 4 + 3) 0xff
  else
    let p0 := upd px (row * pitch + col * 4) 0
    let p1 := upd p0 (row * pitch + col * 4 + 1) 0
    let p2 := upd p1 (row * pitch + col * 4 + 2) 0
    upd p2 (row * pitch + col * 4 + 3) 0

/-- Lines 450-464: the framebuffer written to the locked texture `px`, whose
rows are `pitch` bytes apart. -/
def render (fb : Nat → Nat → Bool) (pitch : Nat) (px : Nat → Nat) : Nat → Nat :=
  (List.range 32).foldl
    (fun px row => (List.range 64).foldl (fun px col => renderPixel fb pitch row col px) px) px

/-! ## Array subscripts of an instruction step -/

/-- A subscript applied to `mem`, `V` or `fb`. -/
inductive Access where
  | mem (a : Nat)
  | reg (i : Nat)
  | fb (r c : Nat)
  deriving DecidableEq

/-- The subscript is within the bounds of its array: `mem` has `0x1000`
elements, `V` has `0x10`, `fb` has 32 rows of 64. -/
def Access.inBounds : Access → Prop
  | .mem a => a < 0x1000
  | .reg i => i < 0x10
  | .fb r c => r < 32 ∧ c < 64

/-- Subscripts of one pass through the body of the inner loop of `Dxyn`
(lines 369-374), recorded next to the state it produces. -/
def drawPixelAcc (x y n b : Nat) (p : State × List Access) : State × List Access :=
  (drawPixel x y n b p.1,
   p.2 ++ [.reg y, .reg x, .fb ((n + p.1.V y) % 32) ((b + p.1.V x) % 64)] ++
     if sp_px p.1 n b && p.1.fb ((n + p.1.V y) % 32) ((b + p.1.V x) % 64)
     then [.reg 0xf] else [])

/-- Subscripts of one pass through the body of the outer loop of `Dxyn`
(lines 367-375). -/
def drawRowAcc (x y n : Nat) (p : State × List Access) : State × List Access :=
  (List.range 8).foldl (fun p b => drawPixelAcc x y n b p)
    (p.1, p.2 ++ [.mem ((p.1.I + n) &&& 0xfff)])

/-- Subscripts of the `Dxyn` branch, lines 365-376. -/
def drawAcc (x y nibble : Nat) (s : State) : List Access :=
  ((List.range nibble).foldl (fun p n => drawRowAcc x y n p)
    ({ s with V := upd s.V 0xf 0 }, [.reg 0xf])).2

/-- Subscripts of each branch of the chain, in the state the branch starts
from.  The subscripts of `keys`, of the keyboard state and the stack are not
memory, register or framebuffer subscripts and are not listed. -/
def execAcc : Instr → State → List Access
  | .cls, _ => (List.range 32).flatMap fun row => (List.range 64).map fun col => .fb row col
  | .ret, _ => []
  | .jp _, _ => []
  | .call _, _ => []
  | .se x _, _ => [.reg x]
  | .sne x _, _ => [.reg x]
  | .sev x y, _ => [.reg x, .reg y]
  | .ld x _, _ => [.reg x]
  | .addb x _, _ => [.reg x]
  | .mov x y, _ => [.reg x, .reg y]
  | .or x y, _ => [.reg x, .reg y]
  | .and x y, _ => [.reg x, .reg y]
  | .xor x y, _ => [.reg x, .reg y]
  | .add x y, _ => [.reg x, .reg y, .reg 0xf]
  | .sub x y, _ => [.reg 0xf, .reg x, .reg y]
  | .shr x, _ => [.reg 0xf, .reg x]
  | .subn x y, _ => [.reg 0xf, .reg y, .reg x]
  | .shl x, _ => [.reg 0xf, .reg x]
  | .snev x y, _ => [.reg x, .reg y]
  | .ldi _, _ => []
  | .jpv _, _ => [.reg 0]
  | .rand x _, _ => [.reg x]
  | .drw x y nibble, s => drawAcc x y nibble s
  | .skp x, _ => [.reg x]
  | .sknp x, _ => [.reg x]
  | .getdt x, _ => [.reg x]
  | .key, _ => []
  | .setdt x, _ => [.reg x]
  | .setst x, _ => [.reg x]
  | .addi x, _ => [.reg x]
  | .font x, _ => [.reg x]
  | .bcd x, s => [.mem s.I, .reg x, .mem ((s.I + 1) &&& 0xfff), .mem ((s.I + 2) &&& 0xfff)]
  | .store x, s => (List.range (x + 1)).flatMap fun i => [.mem ((s.I + i) &&& 0xfff), .reg i]
  | .load x, s => (List.range (x + 1)).flatMap fun i => [.reg i, .mem ((s.I + i) &&& 0xfff)]
  | .nop, _ => []

/-- Subscripts of the opcode fetch (line 240) and of the branch taken. -/
def stepAcc (s : State) : List Access :=
  [.mem s.PC, .mem ((s.PC + 1) &&& 0xfff)] ++
    match fetch s with
    | .ok op => execAcc (decode op) s
    | .error _ => []

/-! ## Conditions of the branches -/

/-- The condition on `op` under which the chain reaches the branch of an
instruction (the final `else` has none of its own). -/
def branchCond (op : Nat) : Instr → Prop
  | .cls => op = 0x00e0
  | .ret => op = 0x00ee
  | .jp _ => op &&& 0xf000 = 0x1000
  | .call _ => op &&& 0xf000 = 0x2000
  | .se _ _ => op &&& 0xf000 = 0x3000
  | .sne _ _ => op &&& 0xf000 = 0x4000
  | .sev _ _ => op &&& 0xf00f = 0x5000
  | .ld _ _ => op &&& 0xf000 = 0x6000
  | .addb _ _ => op &&& 0xf000 = 0x7000
  | .mov _ _ => op &&& 0xf00f = 0x8000
  | .or _ _ => op &&& 0xf00f = 0x8001
  | .and _ _ => op &&& 0xf00f = 0x8002
  | .xor _ _ => op &&& 0xf00f = 0x8003
  | .add _ _ => op &&& 0xf00f = 0x8004
  | .sub _ _ => op &&& 0xf00f = 0x8005
  | .shr _ => op &&& 0xf00f = 0x8006
  | .subn _ _ => op &&& 0xf00f = 0x8007
  | .shl _ => op &&& 0xf00f = 0x800e
  | .snev _ _ => op &&& 0xf00f = 0x9000
  | .ldi _ => op &&& 0xf000 = 0xa000
  | .jpv _ => op &&& 0xf000 = 0xb000
  | .rand _ _ => op &&& 0xf000 = 0xc000
  | .drw _ _ _ => op &&& 0xf000 = 0xd000
  | .skp _ => op &&& 0xf0ff = 0xe09e
  | .sknp _ => op &&& 0xf0ff = 0xe0a1
  | .getdt _ => op &&& 0xf0ff = 0xf007
  | .key => op &&& 0xf0ff = 0xf00a
  | .setdt _ => op &&& 0xf0ff = 0xf015
  | .setst _ => op &&& 0xf0ff = 0xf018
  | .addi _ => op &&& 0xf0ff = 0xf01e
  | .font _ => op &&& 0xf0ff = 0xf029
  | .bcd _ => op &&& 0xf0ff = 0xf033
  | .store _ => op &&& 0xf0ff = 0xf055
  | .load _ => op &&& 0xf0ff = 0xf065
  | .nop => True

/-! ## Auxiliary facts -/

theorem land_fff (a : Nat) : a &&& 0xfff = a % 0x1000 :=
  Nat.and_pow_two_sub_one_eq_mod a 12

theorem land_ffff_of_lt {a : Nat} (h : a < 65536) : a &&& 0xffff = a := by
  have e : a &&& 0xffff = a % 65536 := Nat.and_pow_two_sub_one_eq_mod a 16
  rw [e]; exact Nat.mod_eq_of_lt h

theorem advance_eq (s : State) : advance s = { s with PC := (s.PC + 2) % 0x1000 } := by
  simp only [advance, land_fff]

theorem advance2_eq (s : State) : advance2 s = { s with PC := (s.PC + 4) % 0x1000 } := by
  simp only [advance2, land_fff]

theorem step_of_fetch {h : Host} {s : State} {op : Nat} (hf : fetch s = .ok op) :
    step h s = exec h op s := by
  simp only [step, hf]

/-- The opcode fetched when the two bytes at `PC` are `hi` and `lo`. -/
theorem fetch_bytes {s : State} {hi lo : Nat} (hpc : s.PC < 0x1000) (hhi : s.mem s.PC = hi)
    (hlo : s.mem ((s.PC + 1) % 0x1000) = lo) (hb : hi < 256) (hl : lo < 256) :
    fetch s = .ok (hi * 256 + lo) := by
  have e : ((hi <<< 8) + lo) % 65536 = hi * 256 + lo := by
    rw [Nat.shiftLeft_eq]; omega
  simp only [fetch, hpc, if_true, land_fff, hhi, hlo, e]


/-! ## Masks of an opcode -/

/-- Bitwise AND acts separately on the high and the low part of a number. -/
theorem land_split (k a b c d : Nat) (hc : c < 2 ^ k) (hd : d < 2 ^ k) :
    (2 ^ k * a + c) &&& (2 ^ k * b + d) = 2 ^ k * (a &&& b) + (c &&& d) := by
  apply Nat.eq_of_testBit_eq
  intro j
  have hcd : c &&& d < 2 ^ k := Nat.and_lt_two_pow c hd
  rw [Nat.testBit_and, Nat.testBit_mul_pow_two_add a hc, Nat.testBit_mul_pow_two_add b hd,
    Nat.testBit_mul_pow_two_add (a &&& b) hcd]
  split <;> simp [Nat.testBit_and]

theorem land_digit (k a b c d : Nat) (hc : c < 2 ^ k) (hd : d < 2 ^ k) :
    (a * 2 ^ k + c) &&& (b * 2 ^ k + d) = (a &&& b) * 2 ^ k + (c &&& d) := by
  rw [Nat.mul_comm a, Nat.mul_comm b, Nat.mul_comm (a &&& b)]
  exact land_split k a b c d hc hd

theorem land_digit1 (a b c d : Nat) (hc : c < 16) (hd : d < 16) :
    (a * 16 + c) &&& (b * 16 + d) = (a &&& b) * 16 + (c &&& d) :=
  land_digit 4 a b c d hc hd

theorem land_digit2 (a b c d : Nat) (hc : c < 256) (hd : d < 256) :
    (a * 256 + c) &&& (b * 256 + d) = (a &&& b) * 256 + (c &&& d) :=
  land_digit 8 a b c d hc hd

theorem land_digit3 (a b c d : Nat) (hc : c < 4096) (hd : d < 4096) :
    (a * 4096 + c) &&& (b * 4096 + d) = (a &&& b) * 4096 + (c &&& d) :=
  land_digit 12 a b c d hc hd

theorem land_15 : ∀ n, n < 16 → n &&& 15 = n := by
  decide

/-- The masked values of an opcode in terms of its four hexadecimal digits. -/
theorem masks_of_nibbles {op n3 n2 n1 n0 : Nat} (hop : op = n3 * 4096 + n2 * 256 + n1 * 16 + n0)
    (h3 : n3 < 16) (h2 : n2 < 16) (h1 : n1 < 16) (h0 : n0 < 16) :
    op &&& 0xf000 = n3 * 4096 ∧ op &&& 0xf00f = n3 * 4096 + n0 ∧
    op &&& 0xf0ff = n3 * 4096 + n1 * 16 + n0 ∧
    op &&& 0xfff = n2 * 256 + n1 * 16 + n0 ∧ op &&& 0xff = n1 * 16 + n0 ∧ op &&& 0xf = n0 ∧
    (op &&& 0xf00) >>> 8 = n2 ∧ (op &&& 0xf0) >>> 4 = n1 := by
  have e3 := land_15 n3 h3
  have e2 := land_15 n2 h2
  have e1 := land_15 n1 h1
  have e0 := land_15 n0 h0
  -- one digit at a time, from the low end
  have lo : ∀ m1 m0, m1 < 16 → m0 < 16 →
      (n1 * 16 + n0) &&& (m1 * 16 + m0) = (n1 &&& m1) * 16 + (n0 &&& m0) :=
    fun m1 m0 _ hm0 => land_digit1 n1 m1 n0 m0 h0 hm0
  have mid : ∀ m2 m1 m0, m2 < 16 → m1 < 16 → m0 < 16 →
      (n2 * 256 + (n1 * 16 + n0)) &&& (m2 * 256 + (m1 * 16 + m0))
        = (n2 &&& m2) * 256 + ((n1 &&& m1) * 16 + (n0 &&& m0)) := by
    intro m2 m1 m0 h2' h1' h0'
    rw [land_digit2 n2 m2 _ _ (by omega) (by omega), lo m1 m0 h1' h0']
  have hi : ∀ m3 m2 m1 m0, m3 < 16 → m2 < 16 → m1 < 16 → m0 < 16 →
      op &&& (m3 * 4096 + (m2 * 256 + (m1 * 16 + m0)))
        = (n3 &&& m3) * 4096 + ((n2 &&& m2) * 256 + ((n1 &&& m1) * 16 + (n0 &&& m0))) := by
    intro m3 m2 m1 m0 h3' h2' h1' h0'
    have hop' : op = n3 * 4096 + (n2 * 256 + (n1 * 16 + n0)) := by omega
    rw [hop', land_digit3 n3 m3 _ _ (by omega) (by omega), mid m2 m1 m0 h2' h1' h0']
  have a1 := hi 15 0 0 0 (by decide) (by decide) (by decide) (by decide)
  have a2 := hi 15 0 0 15 (by decide) (by decide) (by decide) (by decide)
  have a3 := hi 15 0 15 15 (by decide) (by decide) (by decide) (by decide)
  have a4 := hi 0 15 15 15 (by decide) (by decide) (by decide) (by decide)
  have a5 := hi 0 0 15 15 (by decide) (by decide) (by decide) (by decide)
  have a6 := hi 0 0 0 15 (by decide) (by decide) (by decide) (by decide)
  have a7 := hi 0 15 0 0 (by decide) (by decide) (by decide) (by decide)
  have a8 := hi 0 0 15 0 (by decide) (by decide) (by decide) (by decide)
  simp only [e3, e2, e1, e0, Nat.and_zero, Nat.zero_mul, Nat.zero_add, Nat.add_zero,
    Nat.reduceMul, Nat.reduceAdd] at a1 a2 a3 a4 a5 a6 a7 a8
  refine ⟨a1, a2, ?_, ?_, a5, a6, ?_, ?_⟩
  · rw [a3]; omega
  · rw [a4]; omega
  · rw [a7, Nat.shiftRight_eq_div_pow]; omega
  · rw [a8, Nat.shiftRight_eq_div_pow]; omega

/-! ## Decoding particular opcodes -/

theorem decode_drw_aux (op x y n : Nat) (hx : x < 16) (hy : y < 16) (hn : n < 16)
    (hop : op = 0xD000 + x * 256 + y * 16 + n) :
    decode op = .drw x y n := by
  obtain ⟨m1, m2, -, -, -, m6, m7, m8⟩ :=
    masks_of_nibbles (show op = 13 * 4096 + x * 256 + y * 16 + n by omega) (by decide) hx hy hn
  have c1 : ¬ op = 0x00e0 := by omega
  have c2 : ¬ op = 0x00ee := by omega
  have cA : ∀ w, w ≠ 0xd000 → (op &&& 0xf000 = w) = False :=
    fun w hw => eq_false (by rw [m1]; omega)
  have cB : ∀ w, w < 0xd000 → (op &&& 0xf00f = w) = False :=
    fun w hw => eq_false (by rw [m2]; omega)
  have cD : (op &&& 0xf000 = 0xd000) = True := eq_true (by rw [m1])
  unfold decode
  simp (disch := omega) only [c1, c2, cA, cB, cD, if_false, if_true, m6, m7, m8]

theorem decode_drw (x y n : Nat) (hx : x < 16) (hy : y < 16) (hn : n < 16) :
    decode (0xD000 + x * 256 + y * 16 + n) = .drw x y n :=
  decode_drw_aux _ x y n hx hy hn rfl

theorem decode_call_aux (op nnn : Nat) (hn : nnn < 0x1000) (hop : op = 0x2000 + nnn) :
    decode op = .call nnn := by
  obtain ⟨m1, -, -, m4, -, -, -, -⟩ :=
    masks_of_nibbles
      (show op = 2 * 4096 + (nnn / 256) * 256 + (nnn / 16 % 16) * 16 + nnn % 16 by omega)
      (by decide) (by omega) (by omega) (by omega)
  have c1 : ¬ op = 0x00e0 := by omega
  have c2 : ¬ op = 0x00ee := by omega
  have e : op &&& 0xfff = nnn := by rw [m4]; omega
  unfold decode
  simp only [m1, e, c1, c2, if_false]
  simp

theorem decode_call (nnn : Nat) (hn : nnn < 0x1000) : decode (0x2000 + nnn) = .call nnn :=
  decode_call_aux _ nnn hn rfl

theorem decode_add : ∀ x, x < 16 → ∀ y, y < 16 → decode (0x8004 + x * 256 + y * 16) = .add x y := by
  decide!

theorem decode_sub : ∀ x, x < 16 → ∀ y, y < 16 → decode (0x8005 + x * 256 + y * 16) = .sub x y := by
  decide!

theorem decode_key : ∀ x, x < 16 → decode (0xF00A + x * 256) = .key := by
  decide

theorem keys_indexOf : ∀ k, k < 16 → ∀ sc, keys[k]? = some sc → keys.indexOf sc = k := by
  decide

/-- An opcode outside the table falls through every condition of the chain. -/
theorem decode_of_not_inOpcodeTable {op : Nat} (hop : op < 65536)
    (hno : inOpcodeTable op = false) : decode op = .nop := by
  have h1 := land_ffff_of_lt hop
  simp only [inOpcodeTable, opcodeTable, List.any_cons, List.any_nil, Bool.or_false,
    Bool.or_eq_false_iff, beq_eq_false_iff_ne, ne_eq, h1] at hno
  obtain ⟨a1, a2, a3, a4, a5, a6, a7, a8, a9, a10, a11, a12, a13, a14, a15, a16, a17, a18,
    a19, a20, a21, a22, a23, a24, a25, a26, a27, a28, a29, a30, a31, a32, a33, a34⟩ := hno
  simp only [decode, a1, a2, a3, a4, a5, a6, a7, a8, a9, a10, a11, a12, a13, a14, a15, a16,
    a17, a18, a19, a20, a21, a22, a23, a24, a25, a26, a27, a28, a29, a30, a31, a32, a33, a34,
    if_false]

/-! ## Arithmetic instructions -/

/-- Behaviour of `8xy4` on distinct registers: the carry of the addition. -/
theorem add_flag_of_ne (h : Host) (s : State) (x y : Nat) (hx : x < 16) (hy : y < 16)
    (hxy : x ≠ y) (hvx : s.V x < 256) (hvy : s.V y < 256) :
    ∃ s', exec h (0x8004 + x * 256 + y * 16) s = .ok (.next, s') ∧
      s'.V 0xf = if s.V x + s.V y > 255 then 1 else 0 := by
  refine ⟨_, by simp only [exec, decode_add x hx y hy, execInstr]; rfl, ?_⟩
  have hyx : ¬ y = x := fun e => hxy e.symm
  simp only [advance, upd, if_true, hyx, if_false]
  split <;> split <;> omega

/-- C4, evaluated at the failing input: `8004` with `V0 = 0x80` leaves
`VF = 0` although the sum `0x80 + 0x80` exceeds 255. -/
theorem add_same_register_loses_carry :
    ∃ s', exec exHost 0x8004 { exState with V := fun _ => 0x80 } = .ok (.next, s') ∧
      s'.V 0xf = 0 ∧ s'.V 0 = 0 ∧ (0x80 : Nat) + 0x80 > 255 :=
  ⟨_, rfl, by decide, by decide, by decide⟩

/-- C5 as stated fails for `y = 0xF`: with `V0 = 5` and `VF = 3`, `80F5`
leaves `V0 = 4`, not `(5 - 3) mod 256 = 2`. -/
theorem sub_flag_operand_counterexample :
    ∃ s', exec exHost 0x80F5 { exState with V := fun j => if j = 0 then 5 else 3 }
        = .ok (.next, s') ∧
      s'.V 0 = 4 ∧ ((4 : Nat) : Int) ≠ ((5 : Int) - 3) % 256 :=
  ⟨_, rfl, by decide, by decide⟩

/-- C5, amended: for `x ≠ 0xF` and every `y`, `8xy5` leaves `VF = 1` if the old
`Vx` exceeds the old `Vy` and `VF = 0` otherwise; when moreover `y ≠ 0xF`,
`Vx` becomes `(old Vx - old Vy) mod 256`. -/
theorem sub_result_and_flag (h : Host) (s : State) (x y : Nat) (hx : x < 16) (hy : y < 16)
    (hxf : x ≠ 0xf) :
    ∃ s', exec h (0x8005 + x * 256 + y * 16) s = .ok (.next, s') ∧
      s'.V 0xf = (if s.V x > s.V y then 1 else 0) ∧
      (y ≠ 0xf → (s'.V x : Int) = ((s.V x : Int) - (s.V y : Int)) % 256) := by
  refine ⟨_, by simp only [exec, decode_sub x hx y hy, execInstr]; rfl, ?_, ?_⟩
  · have hfx : ¬ (0xf = x) := fun e => hxf e.symm
    simp only [advance, upd, if_true, hfx, if_false]
  · intro hyf
    simp only [advance, upd, if_true, hxf, hyf, if_false, sub8]
    omega

theorem sub_result_and_flag_witness :
    ∃ s', exec exHost (0x8005 + 0 * 256 + 1 * 16)
        { exState with V := fun j => if j = 0 then 1 else 2 } = .ok (.next, s') ∧
      s'.V 0xf = (if (1 : Nat) > 2 then 1 else 0) ∧
      ((1 : Nat) ≠ 0xf → (s'.V 0 : Int) = (((1 : Nat) : Int) - ((2 : Nat) : Int)) % 256) :=
  sub_result_and_flag exHost { exState with V := fun j => if j = 0 then 1 else 2 } 0 1
    (by decide) (by decide) (by decide)

/-! ## Control flow -/

/-- C6: a 16-bit opcode that matches no pattern of the opcode table raises
no error and changes nothing but `PC`, which becomes `(PC + 2) mod 0x1000`;
in particular so does an instruction step that fetches such an opcode. -/
theorem unrecognized_opcode_only_advances (h : Host) (s : State) (op : Nat)
    (hop : op < 65536) (hno : inOpcodeTable op = false) :
    exec h op s = .ok (.next, { s with PC := (s.PC + 2) % 0x1000 }) ∧
    (fetch s = .ok op → step h s = .ok (.next, { s with PC := (s.PC + 2) % 0x1000 })) := by
  have e : exec h op s = .ok (.next, { s with PC := (s.PC + 2) % 0x1000 }) := by
    simp only [exec, decode_of_not_inOpcodeTable hop hno, execInstr, advance_eq]
  exact ⟨e, fun hf => by rw [step_of_fetch hf, e]⟩

theorem unrecognized_opcode_only_advances_witness :
    exec exHost 0x5121 exState = .ok (.next, { exState with PC := (exState.PC + 2) % 0x1000 }) ∧
    (fetch exState = .ok 0x0000 →
      step exHost exState = .ok (.next, { exState with PC := (exState.PC + 2) % 0x1000 })) :=
  ⟨(unrecognized_opcode_only_advances exHost exState 0x5121 (by decide) (by decide)).1,
   (unrecognized_opcode_only_advances exHost exState 0x0000 (by decide) (by decide)).2⟩

/-- C7: `2nnn` sets `PC = nnn` and pushes `(PC + 2) mod 0x1000`; `00EE` in any
state whose stack is that pushed stack sets `PC` to the pushed address and
restores the stack. -/
theorem call_then_return (h : Host) (s : State) (nnn : Nat) (hn : nnn < 0x1000) :
    exec h (0x2000 + nnn) s
      = .ok (.next, { s with PC := nnn, stack := (s.PC + 2) % 0x1000 :: s.stack }) ∧
    ∀ (h' : Host) (t : State), t.stack = (s.PC + 2) % 0x1000 :: s.stack →
      exec h' 0x00ee t = .ok (.next, { t with PC := (s.PC + 2) % 0x1000, stack := s.stack }) := by
  constructor
  · simp only [exec, decode_call nnn hn, execInstr, advance_eq]
  · intro h' t ht
    have d : decode 0x00ee = .ret := by decide
    simp only [exec, d, execInstr, ht]

theorem call_then_return_witness :
    exec exHost (0x2000 + 0x345) exState
      = .ok (.next, { exState with PC := 0x345,
                                   stack := (exState.PC + 2) % 0x1000 :: exState.stack }) ∧
    ∀ (h' : Host) (t : State), t.stack = (exState.PC + 2) % 0x1000 :: exState.stack →
      exec h' 0x00ee t
        = .ok (.next, { t with PC := (exState.PC + 2) % 0x1000, stack := exState.stack }) :=
  call_then_return exHost exState 0x345 (by decide)

/-! ## Key wait -/

theorem low_nibble_Fx : ∀ x, x < 16 → (0xF0 + x) &&& 0xf = x := by
  decide

/-- C8: if the instruction at `PC` is `Fx0A`, executing it sets the
waiting-for-key flag and changes nothing else (the burst is left); a later
key release carrying the identifier at position `k` of the key table, in any
waiting state with that `PC` and that byte at `PC`, sets `Vx = k`, clears the
flag, sets `PC` to `(PC + 2) mod 0x1000` and changes nothing else. -/
theorem key_wait_round_trip (h : Host) (s : State) (x k : Nat) (hx : x < 16) (hk : k < 16)
    (hpc : s.PC < 0x1000) (hhi : s.mem s.PC = 0xF0 + x)
    (hlo : s.mem ((s.PC + 1) % 0x1000) = 0x0A) :
    step h s = .ok (.brk, { s with waiting_for_key := true }) ∧
    ∀ (sc : Nat) (t : State), keys[k]? = some sc → t.waiting_for_key = true →
      t.PC = s.PC → t.mem t.PC = s.mem s.PC →
      keyUp sc t = .ok { t with V := upd t.V x k, waiting_for_key := false,
                                PC := (t.PC + 2) % 0x1000 } := by
  constructor
  · have hf : fetch s = .ok ((0xF0 + x) * 256 + 0x0A) :=
      fetch_bytes hpc hhi hlo (by omega) (by decide)
    have e : (0xF0 + x) * 256 + 0x0A = 0xF00A + x * 256 := by omega
    rw [step_of_fetch hf, e]
    simp only [exec, decode_key x hx, execInstr]
  · intro sc t hsc hw htpc htm
    have hi := keys_indexOf k hk sc hsc
    have hlen : keys.length = 16 := rfl
    have hne : k ≠ 16 := by omega
    have hnib : (0xF0 + x) &&& 0xf = x := low_nibble_Fx x hx
    have htpc' : t.PC < 0x1000 := by omega
    simp only [keyUp, hw, if_true, hi, hlen, ne_eq, hne, not_false_eq_true, htpc', htm, hhi,
      hnib, advance_eq]

theorem key_wait_round_trip_witness :
    step exHost { exState with mem := fun a => if a = 0x200 then 0xF3 else 0x0A }
      = .ok (.brk, { exState with mem := fun a => if a = 0x200 then 0xF3 else 0x0A,
                                  waiting_for_key := true }) ∧
    ∀ (sc : Nat) (t : State), keys[10]? = some sc → t.waiting_for_key = true →
      t.PC = 0x200 → t.mem t.PC = 0xF3 →
      keyUp sc t = .ok { t with V := upd t.V 3 10, waiting_for_key := false,
                                PC := (t.PC + 2) % 0x1000 } :=
  key_wait_round_trip exHost { exState with mem := fun a => if a = 0x200 then 0xF3 else 0x0A }
    3 10 (by decide) (by decide) (by decide) (by decide) (by decide)

/-! ## Ticks -/

/-- C9: in a waiting state a tick executes no instruction: `DT` and `ST` are
each decremented if nonzero and nothing else changes. -/
theorem tick_while_waiting (host : Nat → Host) (s : State) (hw : s.waiting_for_key = true) :
    (userEvent host s).next
      = .ok { s with DT := if s.DT ≠ 0 then s.DT - 1 else 0,
                     ST := if s.ST ≠ 0 then s.ST - 1 else 0 } := by
  obtain ⟨mem, stack, V, I, ST, DT, PC, w, fb⟩ := s
  simp only at hw
  subst hw
  by_cases hd : DT = 0 <;> by_cases ht : ST = 0 <;> by_cases ht1 : ST - 1 = 0 <;>
    simp [userEvent, timers, hd, ht, ht1]

theorem tick_while_waiting_witness :
    (userEvent (fun _ => exHost) { exState with waiting_for_key := true, DT := 7, ST := 1 }).next
      = .ok { ({ exState with waiting_for_key := true, DT := 7, ST := 1 } : State) with
                DT := if (7 : Nat) ≠ 0 then 7 - 1 else 0,
                ST := if (1 : Nat) ≠ 0 then 1 - 1 else 0 } :=
  tick_while_waiting (fun _ => exHost) { exState with waiting_for_key := true, DT := 7, ST := 1 }
    rfl

/-- C10 as stated fails: with `ST = 1` the tick starts the tone instead of
stopping it, and with `ST = 2` (nonzero after the decrement) it sends no
signal at all instead of starting the tone. -/
theorem tone_signal_counterexample :
    (userEvent (fun _ => exHost) { exState with ST := 1 }).audio.map toneOf ≠ some Tone.stop ∧
    (userEvent (fun _ => exHost) { exState with ST := 2 }).audio.map toneOf ≠ some Tone.start := by
  constructor <;> decide

/-- C10, amended: the tone signal of a tick is determined by `ST` before the
tick: "start tone" if `ST = 1` (it becomes 0 by this tick's decrement), "stop
tone" if `ST = 0`, and no signal if `ST > 1`. -/
theorem tone_signal (host : Nat → Host) (s : State) :
    (userEvent host s).audio.map toneOf
      = if s.ST = 1 then some Tone.start else if s.ST = 0 then some Tone.stop else none := by
  have ha : (userEvent host s).audio = (timers s).2 := by
    simp only [userEvent]; split <;> rfl
  rw [ha]
  by_cases h0 : s.ST = 0
  · by_cases hd : s.DT = 0 <;> simp [timers, h0, hd, toneOf]
  · by_cases h1 : s.ST = 1
    · by_cases hd : s.DT = 0 <;> simp [timers, h1, hd, toneOf]
    · have h2 : ¬ (s.ST - 1 = 0) := by omega
      by_cases hd : s.DT = 0 <;> simp [timers, h0, h1, h2, hd]

/-! ## Sprite draw: loops and frame -/

/-- Invariant rule for `for (k = 0; k < n; k++)`. -/
theorem foldl_range_inv {σ : Type} (f : σ → Nat → σ) (P : Nat → σ → Prop) (s0 : σ) :
    ∀ n, P 0 s0 → (∀ k s, k < n → P k s → P (k + 1) (f s k)) →
      P n ((List.range n).foldl f s0) := by
  intro n
  induction n with
  | zero => intro h0 _; simpa using h0
  | succ m ih =>
    intro h0 hs
    rw [List.range_succ, List.foldl_append]
    exact hs m _ (Nat.lt_succ_self m) (ih h0 fun k s hk => hs k s (Nat.lt_succ_of_lt hk))

/-- Invariant rule for the two nested loops of `Dxyn`. -/
theorem draw_inv (x y n : Nat) (s : State) (P : Nat → Nat → State → Prop)
    (h0 : P 0 0 { s with V := upd s.V 0xf 0 })
    (hpix : ∀ i b t, i < n → b < 8 → P i b t → P i (b + 1) (drawPixel x y i b t))
    (hrow : ∀ i t, i < n → P i 8 t → P (i + 1) 0 t) :
    P n 0 (draw x y n s) := by
  unfold draw
  refine foldl_range_inv (fun s n => drawRow x y n s) (fun i t => P i 0 t) _ n h0 ?_
  intro i t hi hP
  apply hrow i _ hi
  unfold drawRow
  exact foldl_range_inv (fun s b => drawPixel x y i b s) (fun b t => P i b t) t 8 hP
    (fun b t' hb hP' => hpix i b t' hi hb hP')

theorem drawPixel_mem (x y n b : Nat) (s : State) : (drawPixel x y n b s).mem = s.mem := by
  unfold drawPixel; dsimp only; split <;> rfl

theorem drawPixel_I (x y n b : Nat) (s : State) : (drawPixel x y n b s).I = s.I := by
  unfold drawPixel; dsimp only; split <;> rfl

theorem drawPixel_V (x y n b : Nat) (s : State) :
    (drawPixel x y n b s).V
      = if sp_px s n b = true ∧ s.fb ((n + s.V y) % 32) ((b + s.V x) % 64) = true
        then upd s.V 0xf 1 else s.V := by
  unfold drawPixel; dsimp only
  by_cases h : sp_px s n b = true ∧ s.fb ((n + s.V y) % 32) ((b + s.V x) % 64) = true
  · simp [h]
  · rw [if_neg h]
    have : (sp_px s n b && s.fb ((n + s.V y) % 32) ((b + s.V x) % 64)) = false := by
      rw [Bool.and_eq_false_iff]; rw [not_and_or] at h
      rcases h with h | h
      · left; simpa using h
      · right; simpa using h
    simp [this]

theorem drawPixel_fb (x y n b : Nat) (s : State) :
    (drawPixel x y n b s).fb
      = upd2 s.fb ((n + s.V y) % 32) ((b + s.V x) % 64)
          (s.fb ((n + s.V y) % 32) ((b + s.V x) % 64) ^^ sp_px s n b) := by
  unfold drawPixel; dsimp only; split <;> rfl

theorem sp_px_congr {s t : State} (hm : t.mem = s.mem) (hI : t.I = s.I) (n b : Nat) :
    sp_px t n b = sp_px s n b := by
  simp only [sp_px, spriteRow, hm, hI]

/-- The test of line 369 reads bit `7 - b` of the sprite byte. -/
theorem sp_px_eq_testBit (s : State) (n b : Nat) :
    sp_px s n b = (s.mem ((s.I + n) % 0x1000)).testBit (7 - b) := by
  simp only [sp_px, spriteRow, land_fff, Nat.testBit, Nat.land_comm]

/-! ## Sprite draw: the collision flag -/

theorem upd2_same {α : Type} (a : Nat → Nat → α) (r c : Nat) (v : α) : upd2 a r c v r c = v := by
  simp [upd2]

theorem upd2_other {α : Type} (a : Nat → Nat → α) (r c : Nat) (v : α) (r' c' : Nat)
    (h : ¬ (r' = r ∧ c' = c)) : upd2 a r c v r' c' = a r' c' := by
  simp only [upd2, h, if_false]

theorem upd2_self {α : Type} (a : Nat → Nat → α) (r c : Nat) : upd2 a r c (a r c) = a := by
  funext r' c'
  by_cases h : r' = r ∧ c' = c
  · obtain ⟨h1, h2⟩ := h
    subst h1; subst h2
    exact upd2_same a _ _ _
  · exact upd2_other a r c _ r' c' h

theorem sh_le_one (x f : Nat) (hf : f ≤ 1) : sh x f ≤ sh x 1 ∧ sh x 1 ≤ 1 := by
  unfold sh; split <;> omega

/-- A register read during the draw, in terms of its value on entry. -/
theorem reg_during_draw {s0 t : State} (h15 : s0.V 0xf = 0)
    (hV : ∀ j, j ≠ 0xf → t.V j = s0.V j) (x : Nat) : t.V x = s0.V x + sh x (t.V 0xf) := by
  unfold sh
  by_cases hx : x = 0xf
  · subst hx; rw [if_pos rfl, h15]; omega
  · rw [if_neg hx, hV x hx]; rfl

theorem flagInv_init (s0 : State) (x y : Nat) (h15 : s0.V 0xf = 0) : FlagInv s0 x y 0 0 s0 := by
  refine ⟨rfl, rfl, by omega, fun _ _ => rfl, ?_, fun r c h => absurd rfl h⟩
  constructor
  · intro h; omega
  · rintro ⟨r, c, _, _, h1, h2⟩
    rw [h1] at h2
    exact absurd h2 (by decide)

theorem flagInv_row (s0 : State) (x y i : Nat) (t : State) (H : FlagInv s0 x y i 8 t) :
    FlagInv s0 x y (i + 1) 0 t := by
  obtain ⟨hm, hI, hf, hV, hiff, hfr⟩ := H
  refine ⟨hm, hI, hf, hV, hiff, fun r c h => ?_⟩
  obtain ⟨u, w, hu, hw, hr, hc, hlt⟩ := hfr r c h
  exact ⟨u, w, hu, hw, hr, hc, by omega⟩

theorem flagInv_pixel (s0 : State) (x y i b : Nat) (t : State) (h15 : s0.V 0xf = 0)
    (hi : i < 15) (hb : b < 8) (H : FlagInv s0 x y i b t) :
    FlagInv s0 x y i (b + 1) (drawPixel x y i b t) := by
  obtain ⟨hm, hI, hf, hV, hiff, hfr⟩ := H
  have hVx := reg_during_draw h15 hV x
  have hVy := reg_during_draw h15 hV y
  obtain ⟨hsx, hsx1⟩ := sh_le_one x (t.V 0xf) hf
  obtain ⟨hsy, hsy1⟩ := sh_le_one y (t.V 0xf) hf
  obtain ⟨r0, hr0⟩ : ∃ r0, r0 = (i + t.V y) % 32 := ⟨_, rfl⟩
  obtain ⟨c0, hc0⟩ : ∃ c0, c0 = (b + t.V x) % 64 := ⟨_, rfl⟩
  have hr0lt : r0 < 32 := by omega
  have hc0lt : c0 < 64 := by omega
  have hsame : t.fb r0 c0 = s0.fb r0 c0 := by
    by_contra hne
    obtain ⟨u, w, hu, hw, hr, hc, hlt⟩ := hfr r0 c0 hne
    omega
  -- the cell just drawn lies before the next one
  have hcell : ∀ f', t.V 0xf ≤ f' → f' ≤ 1 →
      ∃ u w, u ≤ 15 ∧ w ≤ 8 ∧ r0 = (u + s0.V y) % 32 ∧ c0 = (w + s0.V x) % 64 ∧
        9 * u + w < 9 * i + (b + 1) + 9 * sh y f' + sh x f' := by
    intro f' hf1 hf2
    refine ⟨i + sh y (t.V 0xf), b + sh x (t.V 0xf), by omega, by omega, by omega, by omega, ?_⟩
    have e1 : sh y (t.V 0xf) ≤ sh y f' := by unfold sh; split <;> omega
    have e2 : sh x (t.V 0xf) ≤ sh x f' := by unfold sh; split <;> omega
    omega
  have hold : ∀ f', t.V 0xf ≤ f' → ∀ r c, t.fb r c ≠ s0.fb r c →
      ∃ u w, u ≤ 15 ∧ w ≤ 8 ∧ r = (u + s0.V y) % 32 ∧ c = (w + s0.V x) % 64 ∧
        9 * u + w < 9 * i + (b + 1) + 9 * sh y f' + sh x f' := by
    intro f' hf1 r c hne
    obtain ⟨u, w, hu, hw, hr, hc, hlt⟩ := hfr r c hne
    have e1 : sh y (t.V 0xf) ≤ sh y f' := by unfold sh; split <;> omega
    have e2 : sh x (t.V 0xf) ≤ sh x f' := by unfold sh; split <;> omega
    exact ⟨u, w, hu, hw, hr, hc, by omega⟩
  have hsp := sp_px_congr hm hI i b
  unfold FlagInv
  rw [drawPixel_mem, drawPixel_I, drawPixel_V, drawPixel_fb, ← hr0, ← hc0]
  refine ⟨hm, hI, ?_⟩
  by_cases hbit : sp_px t i b = true
  · by_cases hpx : t.fb r0 c0 = true
    · -- collision
      rw [if_pos ⟨hbit, hpx⟩, hbit, hpx]
      have hF : upd t.V 0xf 1 0xf = 1 := by simp [upd]
      rw [hF]
      refine ⟨le_refl 1, fun j hj => ?_, ?_, fun r c hne => ?_⟩
      · simp only [upd, hj, if_false]; exact hV j hj
      · refine ⟨fun _ => ⟨r0, c0, hr0lt, hc0lt, ?_, ?_⟩, fun _ => rfl⟩
        · rw [← hsame]; exact hpx
        · rw [upd2_same]; rfl
      · by_cases hrc : r = r0 ∧ c = c0
        · obtain ⟨e1, e2⟩ := hrc
          subst e1; subst e2
          exact hcell 1 hf (le_refl 1)
        · rw [upd2_other _ _ _ _ _ _ hrc] at hne
          exact hold 1 hf r c hne
    · -- a clear cell becomes set
      have hpx' : t.fb r0 c0 = false := by simpa using hpx
      rw [if_neg (fun h => hpx h.2), hbit, hpx']
      refine ⟨hf, hV, ?_, fun r c hne => ?_⟩
      · rw [hiff]
        constructor
        · rintro ⟨r, c, hr, hc, h1, h2⟩
          refine ⟨r, c, hr, hc, h1, ?_⟩
          have hrc : ¬ (r = r0 ∧ c = c0) := by
            rintro ⟨e1, e2⟩
            subst e1; subst e2
            rw [← hsame, hpx'] at h1
            exact absurd h1 (by decide)
          rw [upd2_other _ _ _ _ _ _ hrc]; exact h2
        · rintro ⟨r, c, hr, hc, h1, h2⟩
          refine ⟨r, c, hr, hc, h1, ?_⟩
          have hrc : ¬ (r = r0 ∧ c = c0) := by
            rintro ⟨e1, e2⟩
            subst e1; subst e2
            rw [← hsame, hpx'] at h1
            exact absurd h1 (by decide)
          rw [upd2_other _ _ _ _ _ _ hrc] at h2; exact h2
      · by_cases hrc : r = r0 ∧ c = c0
        · obtain ⟨e1, e2⟩ := hrc
          subst e1; subst e2
          exact hcell _ (le_refl _) hf
        · rw [upd2_other _ _ _ _ _ _ hrc] at hne
          exact hold _ (le_refl _) r c hne
  · -- a clear sprite bit draws nothing
    have hbit' : sp_px t i b = false := by simpa using hbit
    rw [if_neg (fun h => hbit h.1), hbit', Bool.xor_false, upd2_self]
    exact ⟨hf, hV, hiff, hold _ (le_refl _)⟩

theorem draw_flagInv (x y n : Nat) (s : State) (hn : n < 16) :
    FlagInv { s with V := upd s.V 0xf 0 } x y n 0 (draw x y n s) :=
  have h15 : ({ s with V := upd s.V 0xf 0 } : State).V 0xf = 0 := by simp [upd]
  draw_inv x y n s (fun i b t => FlagInv { s with V := upd s.V 0xf 0 } x y i b t)
    (flagInv_init _ x y h15)
    (fun i b t hi hb H => flagInv_pixel _ x y i b t h15 (by omega) hb H)
    (fun i t _ H => flagInv_row _ x y i t H)

/-! ## Sprite draw: the image -/

theorem imageInv_init (s0 : State) (x y : Nat) : ImageInv s0 x y 0 0 s0 := by
  refine ⟨rfl, rfl, rfl, rfl, fun r c => ⟨fun h => absurd rfl h, ?_⟩⟩
  rintro ⟨i', b', hbf, -⟩
  unfold before at hbf
  omega

theorem before_row (i' b' i : Nat) : before i' b' i 8 ↔ before i' b' (i + 1) 0 := by
  unfold before; omega

theorem before_succ (i' b' i b : Nat) (hb : b < 8) :
    before i' b' i (b + 1) ↔ before i' b' i b ∨ (i' = i ∧ b' = b) := by
  unfold before; omega

theorem imageInv_row (s0 : State) (x y i : Nat) (t : State) (H : ImageInv s0 x y i 8 t) :
    ImageInv s0 x y (i + 1) 0 t := by
  obtain ⟨hm, hI, hx, hy, hfb⟩ := H
  refine ⟨hm, hI, hx, hy, fun r c => ?_⟩
  rw [hfb r c]
  constructor
  · rintro ⟨i', b', h1, h2⟩
    exact ⟨i', b', (before_row i' b' i).1 h1, h2⟩
  · rintro ⟨i', b', h1, h2⟩
    exact ⟨i', b', (before_row i' b' i).2 h1, h2⟩

theorem imageInv_pixel (s0 : State) (x y i b : Nat) (t : State) (hi : i < 15) (hb : b < 8)
    (hfrozen : (x ≠ 0xf ∧ y ≠ 0xf) ∨ ∀ r c, r < 32 → c < 64 → s0.fb r c = false)
    (H : ImageInv s0 x y i b t) : ImageInv s0 x y i (b + 1) (drawPixel x y i b t) := by
  obtain ⟨hm, hI, hx, hy, hfb⟩ := H
  obtain ⟨r0, hr0⟩ : ∃ r0, r0 = (i + s0.V y) % 32 := ⟨_, rfl⟩
  obtain ⟨c0, hc0⟩ : ∃ c0, c0 = (b + s0.V x) % 64 := ⟨_, rfl⟩
  have hr0lt : r0 < 32 := by omega
  have hc0lt : c0 < 64 := by omega
  -- no earlier sprite pixel lands on the cell of `(i, b)`
  have huniq : ∀ i' b', before i' b' i (b + 1) → r0 = (i' + s0.V y) % 32 →
      c0 = (b' + s0.V x) % 64 → i' = i ∧ b' = b := by
    intro i' b' hbf h1 h2
    unfold before at hbf
    omega
  have hsame : t.fb r0 c0 = s0.fb r0 c0 := by
    by_contra hne
    obtain ⟨i', b', hbf, -, h1, h2⟩ := (hfb r0 c0).1 hne
    have := huniq i' b' ((before_succ i' b' i b hb).2 (Or.inl hbf)) h1 h2
    unfold before at hbf
    omega
  have hsp := sp_px_congr hm hI i b
  unfold ImageInv
  rw [drawPixel_mem, drawPixel_I, drawPixel_V, drawPixel_fb, hx, hy, ← hr0, ← hc0]
  refine ⟨hm, hI, ?_, ?_, fun r c => ?_⟩
  · split
    · rename_i hcol
      rcases hfrozen with ⟨hxf, -⟩ | hclear
      · simp only [upd, hxf, if_false]; exact hx
      · rw [hsame, hclear r0 c0 hr0lt hc0lt] at hcol
        exact absurd hcol.2 (by decide)
    · exact hx
  · split
    · rename_i hcol
      rcases hfrozen with ⟨-, hyf⟩ | hclear
      · simp only [upd, hyf, if_false]; exact hy
      · rw [hsame, hclear r0 c0 hr0lt hc0lt] at hcol
        exact absurd hcol.2 (by decide)
    · exact hy
  · by_cases hrc : r = r0 ∧ c = c0
    · obtain ⟨e1, e2⟩ := hrc
      subst e1; subst e2
      rw [upd2_same, hsame, hsp]
      constructor
      · intro hne
        refine ⟨i, b, (before_succ i b i b hb).2 (Or.inr ⟨rfl, rfl⟩), ?_, hr0, hc0⟩
        cases hbit : sp_px s0 i b
        · rw [hbit, Bool.xor_false] at hne
          exact absurd rfl hne
        · rfl
      · rintro ⟨i', b', hbf, hbit, h1, h2⟩
        obtain ⟨e1, e2⟩ := huniq i' b' hbf h1 h2
        subst e1; subst e2
        rw [hbit]
        cases s0.fb r c <;> decide
    · rw [upd2_other _ _ _ _ _ _ hrc, hfb r c]
      constructor
      · rintro ⟨i', b', hbf, h2⟩
        exact ⟨i', b', (before_succ i' b' i b hb).2 (Or.inl hbf), h2⟩
      · rintro ⟨i', b', hbf, hbit, h1, h2⟩
        rcases (before_succ i' b' i b hb).1 hbf with hbf' | ⟨e1, e2⟩
        · exact ⟨i', b', hbf', hbit, h1, h2⟩
        · subst e1; subst e2
          exact absurd ⟨h1.trans hr0.symm, h2.trans hc0.symm⟩ hrc

theorem draw_imageInv (x y n : Nat) (s : State) (hn : n < 16)
    (hfrozen : (x ≠ 0xf ∧ y ≠ 0xf) ∨ ∀ r c, r < 32 → c < 64 → s.fb r c = false) :
    ImageInv { s with V := upd s.V 0xf 0 } x y n 0 (draw x y n s) :=
  draw_inv x y n s (fun i b t => ImageInv { s with V := upd s.V 0xf 0 } x y i b t)
    (imageInv_init _ x y)
    (fun i b t hi hb H => imageInv_pixel _ x y i b t (by omega) hb hfrozen H)
    (fun i t _ H => imageInv_row _ x y i t H)

/-! ## Sprite draw: drawing over the sprite's own image -/

theorem redrawInv_init (s0 : State) (x y : Nat) : RedrawInv s0 x y 0 0 s0 := by
  refine ⟨rfl, rfl, Or.inr ⟨rfl, rfl, rfl, fun i' b' hbf => ?_⟩⟩
  unfold before at hbf
  omega

theorem redrawInv_row (s0 : State) (x y i : Nat) (t : State) (H : RedrawInv s0 x y i 8 t) :
    RedrawInv s0 x y (i + 1) 0 t := by
  obtain ⟨hm, hI, h | ⟨hx, hy, hfb, hno⟩⟩ := H
  · exact ⟨hm, hI, Or.inl h⟩
  · exact ⟨hm, hI, Or.inr ⟨hx, hy, hfb, fun i' b' hbf => hno i' b' ((before_row i' b' i).2 hbf)⟩⟩

theorem redrawInv_pixel (s0 : State) (x y n i b : Nat) (t : State) (hi : i < n) (hb : b < 8)
    (himg : ∀ i' b', i' < n → b' < 8 → sp_px s0 i' b' = true →
      s0.fb ((i' + s0.V y) % 32) ((b' + s0.V x) % 64) = true)
    (H : RedrawInv s0 x y i b t) : RedrawInv s0 x y i (b + 1) (drawPixel x y i b t) := by
  obtain ⟨hm, hI, hdis⟩ := H
  have hsp := sp_px_congr hm hI i b
  unfold RedrawInv
  rw [drawPixel_mem, drawPixel_I, drawPixel_V, drawPixel_fb]
  refine ⟨hm, hI, ?_⟩
  rcases hdis with h | ⟨hx, hy, hfb, hno⟩
  · left
    split
    · simp [upd]
    · exact h
  · cases hbit : sp_px s0 i b
    · right
      rw [hsp, hbit, Bool.xor_false, upd2_self]
      rw [if_neg (fun h => absurd h.1 (by decide))]
      refine ⟨hx, hy, hfb, fun i' b' hbf => ?_⟩
      rcases (before_succ i' b' i b hb).1 hbf with hbf' | ⟨e1, e2⟩
      · exact hno i' b' hbf'
      · subst e1; subst e2; exact hbit
    · left
      have hpx := himg i b hi hb hbit
      rw [hsp, hbit, hx, hy, hfb, if_pos ⟨rfl, hpx⟩]
      simp [upd]

theorem draw_redrawInv (x y n : Nat) (s : State)
    (himg : ∀ i' b', i' < n → b' < 8 → sp_px s i' b' = true →
      s.fb ((i' + upd s.V 0xf 0 y) % 32) ((b' + upd s.V 0xf 0 x) % 64) = true) :
    RedrawInv { s with V := upd s.V 0xf 0 } x y n 0 (draw x y n s) :=
  draw_inv x y n s (fun i b t => RedrawInv { s with V := upd s.V 0xf 0 } x y i b t)
    (redrawInv_init _ x y)
    (fun i b t hi hb H => redrawInv_pixel _ x y n i b t hi hb himg H)
    (fun i t _ H => redrawInv_row _ x y i t H)

/-! ## Sprite draw: the instruction -/

theorem exec_drw (h : Host) (s : State) (x y n : Nat) (hx : x < 16) (hy : y < 16)
    (hn : n < 16) :
    exec h (0xD000 + x * 256 + y * 16 + n) s = .ok (.next, advance (draw x y n s)) := by
  simp only [exec, decode_drw x y n hx hy hn, execInstr]

theorem before_end (i' b' n : Nat) : before i' b' n 0 ↔ i' < n ∧ b' < 8 := by
  unfold before; omega

/-- C2: after `Dxyn`, `VF = 1` if and only if some framebuffer pixel that was
set before the instruction is clear after it, and `VF = 0` otherwise. -/
theorem draw_collision_flag (h : Host) (s : State) (x y n : Nat) (hx : x < 16) (hy : y < 16)
    (hn : n < 16) :
    ∃ s', exec h (0xD000 + x * 256 + y * 16 + n) s = .ok (.next, s') ∧
      (s'.V 0xf = 1 ↔ ∃ r c, r < 32 ∧ c < 64 ∧ s.fb r c = true ∧ s'.fb r c = false) ∧
      ((¬ ∃ r c, r < 32 ∧ c < 64 ∧ s.fb r c = true ∧ s'.fb r c = false) → s'.V 0xf = 0) := by
  obtain ⟨-, -, hf, -, hiff, -⟩ := draw_flagInv x y n s hn
  refine ⟨_, exec_drw h s x y n hx hy hn, hiff, fun hno => ?_⟩
  have h1 : ¬ (draw x y n s).V 0xf = 1 := fun h1 => hno (hiff.1 h1)
  show (draw x y n s).V 0xf = 0
  omega

/-- C3: for `x` and `y` other than `0xF`, `Dxyn` XORs bit `b` (0 = most
significant) of the byte at `(I + i) mod 0x1000` into the pixel at row
`(Vy + i) mod 32`, column `(Vx + b) mod 64`, for `i < n` and `b < 8`, and leaves
every pixel no sprite bit maps to unchanged. -/
theorem draw_xors_sprite (h : Host) (s : State) (x y n : Nat) (hx : x < 16) (hy : y < 16)
    (hn : n < 16) (hxf : x ≠ 0xf) (hyf : y ≠ 0xf) :
    ∃ s', exec h (0xD000 + x * 256 + y * 16 + n) s = .ok (.next, s') ∧
      (∀ i b, i < n → b < 8 →
        s'.fb ((s.V y + i) % 32) ((s.V x + b) % 64)
          = (s.fb ((s.V y + i) % 32) ((s.V x + b) % 64)
              ^^ (s.mem ((s.I + i) % 0x1000)).testBit (7 - b))) ∧
      (∀ r c, (∀ i b, i < n → b < 8 → ¬ (r = (s.V y + i) % 32 ∧ c = (s.V x + b) % 64)) →
        s'.fb r c = s.fb r c) := by
  obtain ⟨-, -, -, -, hfb⟩ := draw_imageInv x y n s hn (Or.inl ⟨hxf, hyf⟩)
  have ex : upd s.V 0xf 0 x = s.V x := by simp only [upd, hxf, if_false]
  have ey : upd s.V 0xf 0 y = s.V y := by simp only [upd, hyf, if_false]
  have hsp : ∀ i b, sp_px { s with V := upd s.V 0xf 0 } i b
      = (s.mem ((s.I + i) % 0x1000)).testBit (7 - b) := fun i b => sp_px_eq_testBit _ i b
  simp only [ex, ey, hsp, before_end] at hfb
  refine ⟨_, exec_drw h s x y n hx hy hn, fun i b hi hb => ?_, fun r c hno => ?_⟩
  · show (draw x y n s).fb _ _ = _
    have := hfb ((s.V y + i) % 32) ((s.V x + b) % 64)
    cases hbit : (s.mem ((s.I + i) % 0x1000)).testBit (7 - b)
    · rw [Bool.xor_false]
      by_contra hne
      obtain ⟨i', b', ⟨hi', hb'⟩, hbit', h1, h2⟩ := this.1 hne
      have e1 : i' = i := by omega
      have e2 : b' = b := by omega
      subst e1; subst e2
      rw [hbit] at hbit'
      exact absurd hbit' (by decide)
    · have hne := this.2 ⟨i, b, ⟨hi, hb⟩, hbit, by omega, by omega⟩
      revert hne
      cases (draw x y n s).fb ((s.V y + i) % 32) ((s.V x + b) % 64) <;>
        cases s.fb ((s.V y + i) % 32) ((s.V x + b) % 64) <;> simp
  · show (draw x y n s).fb r c = s.fb r c
    by_contra hne
    obtain ⟨i', b', ⟨hi', hb'⟩, -, h1, h2⟩ := (hfb r c).1 hne
    exact hno i' b' hi' hb' ⟨by omega, by omega⟩

set_option maxRecDepth 100000 in
/-- C1 as stated fails when the coordinate register is `VF`: drawing the
one-row sprite `0xC0` twice with `DF01` leaves the pixels `(0, 1)` and
`(0, 2)` set, so the framebuffer is not all-false again. -/
theorem draw_twice_counterexample :
    (∀ r c, ({ exState with mem := fun _ => 0xC0 } : State).fb r c = false) ∧
    (({ exState with mem := fun _ => 0xC0 } : State).mem
      ((({ exState with mem := fun _ => 0xC0 } : State).I + 0) % 0x1000)).testBit (7 - 0) = true ∧
    ∃ s1 s2,
      exec exHost 0xDF01 { exState with mem := fun _ => 0xC0 } = .ok (.next, s1) ∧
      exec exHost 0xDF01 s1 = .ok (.next, s2) ∧
      s2.fb 0 1 = true ∧ s2.fb 0 2 = true :=
  ⟨fun _ _ => rfl, by decide, _, _, rfl, rfl, rfl, rfl⟩

/-- C1, amended: from a framebuffer that is all-false, with at least one set
bit among the `n` sprite bytes at `I..I+n-1` (mod 0x1000), `Dxyn` leaves
`VF = 0` and the same `Dxyn` executed again leaves `VF = 1`, for all `x` and
`y`; when `x` and `y` are both different from `0xF`, the framebuffer is
all-false again after the second draw. -/
theorem draw_twice (h h' : Host) (s : State) (x y n : Nat) (hx : x < 16) (hy : y < 16)
    (hn : n < 16) (hclear : ∀ r c, r < 32 → c < 64 → s.fb r c = false)
    (hbit : ∃ i b, i < n ∧ b < 8 ∧ (s.mem ((s.I + i) % 0x1000)).testBit (7 - b) = true) :
    ∃ s1 s2,
      exec h (0xD000 + x * 256 + y * 16 + n) s = .ok (.next, s1) ∧ s1.V 0xf = 0 ∧
      exec h' (0xD000 + x * 256 + y * 16 + n) s1 = .ok (.next, s2) ∧ s2.V 0xf = 1 ∧
      (x ≠ 0xf → y ≠ 0xf → ∀ r c, r < 32 → c < 64 → s2.fb r c = false) := by
  -- first draw
  obtain ⟨hm1, hI1, hf1, hV1, hiff1, -⟩ := draw_flagInv x y n s hn
  obtain ⟨-, -, -, -, hfb1⟩ := draw_imageInv x y n s hn (Or.inr hclear)
  have hflag1 : (draw x y n s).V 0xf = 0 := by
    have h1 : ¬ (draw x y n s).V 0xf = 1 := by
      intro h1
      obtain ⟨r, c, hr, hc, hset, -⟩ := hiff1.1 h1
      have : s.fb r c = true := hset
      rw [hclear r c hr hc] at this
      exact absurd this (by decide)
    omega
  -- the state the second draw starts from agrees with that of the first
  have hV2 : upd (advance (draw x y n s)).V 0xf 0 = upd s.V 0xf 0 := by
    funext j
    by_cases hj : j = 0xf
    · subst hj; simp [upd]
    · have := hV1 j hj
      simp only [upd, hj, if_false] at this ⊢
      exact this
  have hm2 : ({ advance (draw x y n s) with
      V := upd (advance (draw x y n s)).V 0xf 0 } : State).mem = s.mem := hm1
  have hI2 : ({ advance (draw x y n s) with
      V := upd (advance (draw x y n s)).V 0xf 0 } : State).I = s.I := hI1
  have hsp2 : ∀ i b, sp_px (advance (draw x y n s)) i b
      = sp_px { s with V := upd s.V 0xf 0 } i b := fun i b => sp_px_congr hm1 hI1 i b
  have hsp2' : ∀ i b, sp_px { advance (draw x y n s) with
      V := upd (advance (draw x y n s)).V 0xf 0 } i b
      = sp_px { s with V := upd s.V 0xf 0 } i b := fun i b => sp_px_congr hm1 hI1 i b
  -- second draw: the flag
  have himg : ∀ i' b', i' < n → b' < 8 → sp_px (advance (draw x y n s)) i' b' = true →
      (advance (draw x y n s)).fb ((i' + upd (advance (draw x y n s)).V 0xf 0 y) % 32)
        ((b' + upd (advance (draw x y n s)).V 0xf 0 x) % 64) = true := by
    intro i' b' hi' hb' hb1
    rw [hV2]
    rw [hsp2] at hb1
    have hne := (hfb1 _ _).2 ⟨i', b', (before_end i' b' n).2 ⟨hi', hb'⟩, hb1, rfl, rfl⟩
    have hc : s.fb ((i' + upd s.V 0xf 0 y) % 32) ((b' + upd s.V 0xf 0 x) % 64) = false :=
      hclear _ _ (Nat.mod_lt _ (by decide)) (Nat.mod_lt _ (by decide))
    show (draw x y n s).fb _ _ = true
    revert hne
    show (draw x y n s).fb _ _ ≠ s.fb _ _ → _
    rw [hc]
    cases (draw x y n s).fb ((i' + upd s.V 0xf 0 y) % 32) ((b' + upd s.V 0xf 0 x) % 64) <;> simp
  have hflag2 : (draw x y n (advance (draw x y n s))).V 0xf = 1 := by
    obtain ⟨-, -, hdis⟩ := draw_redrawInv x y n (advance (draw x y n s)) himg
    rcases hdis with h1 | ⟨-, -, -, hno⟩
    · exact h1
    · obtain ⟨i, b, hi, hb, hset⟩ := hbit
      have := hno i b ((before_end i b n).2 ⟨hi, hb⟩)
      rw [hsp2', sp_px_eq_testBit] at this
      rw [this] at hset
      exact absurd hset (by decide)
  refine ⟨_, _, exec_drw h s x y n hx hy hn, hflag1, exec_drw h' _ x y n hx hy hn, hflag2, ?_⟩
  -- second draw: the framebuffer
  intro hxf hyf r c hr hc
  obtain ⟨-, -, -, -, hfb2⟩ := draw_imageInv x y n (advance (draw x y n s)) hn (Or.inl ⟨hxf, hyf⟩)
  have e2 := hfb2 r c
  simp only [hsp2'] at e2
  simp only [hV2] at e2
  have e1 := hfb1 r c
  dsimp only at e1
  have e3 : ((draw x y n (advance (draw x y n s))).fb r c ≠ (draw x y n s).fb r c)
      ↔ ((draw x y n s).fb r c ≠ s.fb r c) := e2.trans e1.symm
  show (draw x y n (advance (draw x y n s))).fb r c = false
  rw [hclear r c hr hc] at e3
  revert e3
  cases (draw x y n (advance (draw x y n s))).fb r c <;> cases (draw x y n s).fb r c <;> simp

/-- The amended C1 at `D012` with the two-row sprite `0xC0, 0xC0`. -/
theorem draw_twice_witness :
    ∃ s1 s2,
      exec exHost (0xD000 + 0 * 256 + 1 * 16 + 2) { exState with mem := fun _ => 0xC0 }
        = .ok (.next, s1) ∧ s1.V 0xf = 0 ∧
      exec exHost (0xD000 + 0 * 256 + 1 * 16 + 2) s1 = .ok (.next, s2) ∧ s2.V 0xf = 1 ∧
      ((0 : Nat) ≠ 0xf → (1 : Nat) ≠ 0xf → ∀ r c, r < 32 → c < 64 → s2.fb r c = false) :=
  draw_twice exHost exHost { exState with mem := fun _ => 0xC0 } 0 1 2 (by decide) (by decide)
    (by decide) (fun _ _ _ _ => rfl) ⟨0, 0, by decide, by decide, by decide⟩

/-- C2 at `D012` over a framebuffer whose pixel `(0, 0)` is set. -/
theorem draw_collision_flag_witness :
    ∃ s', exec exHost (0xD000 + 0 * 256 + 1 * 16 + 2)
        { exState with mem := fun _ => 0xC0, fb := fun r c => decide (r = 0 ∧ c = 0) }
        = .ok (.next, s') ∧
      (s'.V 0xf = 1 ↔ ∃ r c, r < 32 ∧ c < 64 ∧
        ({ exState with mem := fun _ => 0xC0,
                        fb := fun r c => decide (r = 0 ∧ c = 0) } : State).fb r c = true ∧
        s'.fb r c = false) ∧
      ((¬ ∃ r c, r < 32 ∧ c < 64 ∧
        ({ exState with mem := fun _ => 0xC0,
                        fb := fun r c => decide (r = 0 ∧ c = 0) } : State).fb r c = true ∧
        s'.fb r c = false) → s'.V 0xf = 0) :=
  draw_collision_flag exHost
    { exState with mem := fun _ => 0xC0, fb := fun r c => decide (r = 0 ∧ c = 0) } 0 1 2
    (by decide) (by decide) (by decide)

/-- C3 at `D012` with the two-row sprite `0xC0, 0xC0`. -/
theorem draw_xors_sprite_witness :
    ∃ s', exec exHost (0xD000 + 0 * 256 + 1 * 16 + 2) { exState with mem := fun _ => 0xC0 }
        = .ok (.next, s') ∧
      (∀ i b, i < 2 → b < 8 →
        s'.fb ((0 + i) % 32) ((0 + b) % 64)
          = (false ^^ (0xC0 : Nat).testBit (7 - b))) ∧
      (∀ r c, (∀ i b, i < 2 → b < 8 → ¬ (r = (0 + i) % 32 ∧ c = (0 + b) % 64)) →
        s'.fb r c = false) :=
  draw_xors_sprite exHost { exState with mem := fun _ => 0xC0 } 0 1 2 (by decide) (by decide)
    (by decide) (by decide) (by decide)


/-! ## Operands and frame of the instructions -/

/-- A property of both branches of a conditional holds of the conditional. -/
theorem ite_both {α : Type} {P : α → Prop} {c : Prop} [Decidable c] {t e : α}
    (ht : P t) (he : P e) : P (if c then t else e) := by
  split <;> assumption

/-- Case analysis on a conditional, keeping the condition. -/
theorem ite_cases {α : Type} {P : α → Prop} {c : Prop} [Decidable c] {t e : α}
    (ht : c → P t) (he : ¬ c → P e) : P (if c then t else e) := by
  split
  · exact ht ‹_›
  · exact he ‹_›

theorem decode_wf (op : Nat) : (decode op).WF := by
  have hx : (op &&& 0xf00) >>> 8 < 16 := by
    have h1 : op &&& 0xf00 ≤ 0xf00 := Nat.and_le_right
    rw [Nat.shiftRight_eq_div_pow]
    omega
  have hy : (op &&& 0xf0) >>> 4 < 16 := by
    have h1 : op &&& 0xf0 ≤ 0xf0 := Nat.and_le_right
    rw [Nat.shiftRight_eq_div_pow]
    omega
  have hb : op &&& 0xff < 256 := Nat.lt_succ_of_le Nat.and_le_right
  have ha : op &&& 0xfff < 0x1000 := Nat.lt_succ_of_le Nat.and_le_right
  have hn : op &&& 0xf < 16 := Nat.lt_succ_of_le Nat.and_le_right
  unfold decode
  repeat' apply ite_both
  all_goals first
    | exact trivial | exact hx | exact ha | exact ⟨hx, hb⟩ | exact ⟨hx, hy⟩ | exact ⟨hx, hy, hn⟩

theorem storeRegs_frame (x : Nat) (s : State) :
    (storeRegs x s).PC = s.PC ∧ (storeRegs x s).I = s.I ∧ (storeRegs x s).stack = s.stack ∧
    (storeRegs x s).V = s.V ∧ (storeRegs x s).fb = s.fb := by
  unfold storeRegs
  exact foldl_range_inv _
    (fun _ t => t.PC = s.PC ∧ t.I = s.I ∧ t.stack = s.stack ∧ t.V = s.V ∧ t.fb = s.fb)
    s (x + 1) ⟨rfl, rfl, rfl, rfl, rfl⟩ (fun _ _ _ h => h)

theorem loadRegs_frame (x : Nat) (s : State) :
    (loadRegs x s).PC = s.PC ∧ (loadRegs x s).I = s.I ∧ (loadRegs x s).stack = s.stack ∧
    (loadRegs x s).mem = s.mem ∧ (loadRegs x s).fb = s.fb := by
  unfold loadRegs
  exact foldl_range_inv _
    (fun _ t => t.PC = s.PC ∧ t.I = s.I ∧ t.stack = s.stack ∧ t.mem = s.mem ∧ t.fb = s.fb)
    s (x + 1) ⟨rfl, rfl, rfl, rfl, rfl⟩ (fun _ _ _ h => h)

theorem drawPixel_frame (x y n b : Nat) (s : State) :
    (drawPixel x y n b s).PC = s.PC ∧ (drawPixel x y n b s).stack = s.stack := by
  unfold drawPixel; dsimp only; split <;> exact ⟨rfl, rfl⟩

theorem draw_frame (x y n : Nat) (s : State) :
    (draw x y n s).PC = s.PC ∧ (draw x y n s).I = s.I ∧ (draw x y n s).stack = s.stack ∧
    (draw x y n s).mem = s.mem := by
  refine draw_inv x y n s
    (fun _ _ t => t.PC = s.PC ∧ t.I = s.I ∧ t.stack = s.stack ∧ t.mem = s.mem)
    ⟨rfl, rfl, rfl, rfl⟩ ?_ (fun _ _ _ h => h)
  intro i b t _ _ h
  obtain ⟨h1, h2, h3, h4⟩ := h
  obtain ⟨f1, f2⟩ := drawPixel_frame x y i b t
  exact ⟨f1.trans h1, (drawPixel_I x y i b t).trans h2, f2.trans h3,
    (drawPixel_mem x y i b t).trans h4⟩

/-! ## The address registers stay within twelve bits -/

theorem addrInv_of_eq {s t : State} (h1 : t.PC = s.PC) (h2 : t.I = s.I)
    (h3 : t.stack = s.stack) (h : AddrInv s) : AddrInv t := by
  unfold AddrInv at h ⊢
  rw [h1, h2, h3]; exact h

theorem addrInv_advance {s : State} (h : AddrInv s) : AddrInv (advance s) := by
  obtain ⟨-, h2, h3⟩ := h
  refine ⟨?_, h2, h3⟩
  show (s.PC + 2) &&& 0xfff ≤ 0xfff
  exact Nat.and_le_right

theorem addrInv_advance2 {s : State} (h : AddrInv s) : AddrInv (advance2 s) := by
  obtain ⟨-, h2, h3⟩ := h
  refine ⟨?_, h2, h3⟩
  show (s.PC + 4) &&& 0xfff ≤ 0xfff
  exact Nat.and_le_right

theorem execInstr_addrInv (h : Host) (ins : Instr) (s : State) (f : Flow) (s1 : State)
    (hw : ins.WF) (hinv : AddrInv s) (he : execInstr h ins s = .ok (f, s1)) : AddrInv s1 := by
  cases ins <;> simp only [execInstr] at he
  case ret =>
    split at he
    · cases he
    · rename_i top rest hs
      cases he
      refine ⟨hinv.2.2 top (by rw [hs]; exact List.mem_cons_self _ _), hinv.2.1, fun a ha => ?_⟩
      exact hinv.2.2 a (by rw [hs]; exact List.mem_cons_of_mem _ ha)
  case jp addr =>
    cases he
    exact ⟨Nat.le_of_lt_succ hw, hinv.2.1, hinv.2.2⟩
  case call addr =>
    cases he
    refine ⟨Nat.le_of_lt_succ hw, hinv.2.1, fun a ha => ?_⟩
    rcases List.mem_cons.1 ha with e | ha
    · rw [e]; exact (addrInv_advance hinv).1
    · exact hinv.2.2 a ha
  case se | sne | sev | snev =>
    cases he
    split
    · exact addrInv_advance2 hinv
    · exact addrInv_advance hinv
  case ldi addr =>
    cases he
    exact addrInv_advance ⟨hinv.1, Nat.le_of_lt_succ hw, hinv.2.2⟩
  case jpv addr =>
    cases he
    exact ⟨Nat.and_le_right, hinv.2.1, hinv.2.2⟩
  case drw x y n =>
    cases he
    obtain ⟨f1, f2, f3, -⟩ := draw_frame x y n s
    exact addrInv_advance (addrInv_of_eq f1 f2 f3 hinv)
  case skp | sknp =>
    split at he
    · cases he
    · cases he
      split
      · exact addrInv_advance2 hinv
      · exact addrInv_advance hinv
  case key =>
    cases he
    exact hinv
  case addi | font =>
    cases he
    exact addrInv_advance ⟨hinv.1, Nat.and_le_right, hinv.2.2⟩
  case bcd x =>
    split at he
    · cases he
      exact addrInv_advance hinv
    · cases he
  case store x =>
    cases he
    obtain ⟨f1, f2, f3, -⟩ := storeRegs_frame x s
    exact addrInv_advance (addrInv_of_eq f1 f2 f3 hinv)
  case load x =>
    cases he
    obtain ⟨f1, f2, f3, -⟩ := loadRegs_frame x s
    exact addrInv_advance (addrInv_of_eq f1 f2 f3 hinv)
  all_goals
    cases he
    exact addrInv_advance hinv

theorem keyUp_addrInv (scancode : Nat) (s s1 : State) (hinv : AddrInv s)
    (he : keyUp scancode s = .ok s1) : AddrInv s1 := by
  unfold keyUp at he
  split at he
  · dsimp only at he
    split at he
    · split at he
      · cases he
        exact addrInv_advance hinv
      · cases he
    · cases he
      exact hinv
  · cases he
    exact hinv

theorem keys_getElem_none {k : Nat} (h : keys[k]? = none) : 16 ≤ k := by
  have hl : keys.length = 16 := rfl
  rw [List.getElem?_eq_none_iff] at h
  omega

/-- An instruction yields a state unless it pops the empty stack or reads
the key table beyond its end. -/
theorem execInstr_ok (h : Host) (ins : Instr) (s : State) (hI : s.I ≤ 0xfff) :
    (∃ f s1, execInstr h ins s = .ok (f, s1)) ∨ (ins = .ret ∧ s.stack = []) ∨
    (∃ x, (ins = .skp x ∨ ins = .sknp x) ∧ 16 ≤ s.V x) := by
  cases ins
  case ret =>
    cases hs : s.stack with
    | nil => exact Or.inr (Or.inl ⟨rfl, rfl⟩)
    | cons top rest => exact Or.inl ⟨_, _, by simp only [execInstr, hs]; rfl⟩
  case skp x =>
    cases hk : keys[s.V x]? with
    | none => exact Or.inr (Or.inr ⟨x, Or.inl rfl, keys_getElem_none hk⟩)
    | some sc => exact Or.inl ⟨_, _, by simp only [execInstr, hk]; rfl⟩
  case sknp x =>
    cases hk : keys[s.V x]? with
    | none => exact Or.inr (Or.inr ⟨x, Or.inr rfl, keys_getElem_none hk⟩)
    | some sc => exact Or.inl ⟨_, _, by simp only [execInstr, hk]; rfl⟩
  case bcd x =>
    have hI' : s.I < 0x1000 := by omega
    exact Or.inl ⟨_, _, by simp only [execInstr, hI', if_true]; rfl⟩
  all_goals exact Or.inl ⟨_, _, rfl⟩

/-- Every instruction other than a jump, a return or the key wait sets `PC` to
`(PC + 2) mod 0x1000` or to `(PC + 4) mod 0x1000`. -/
theorem execInstr_pc (h : Host) (ins : Instr) (s : State) (f : Flow) (s1 : State)
    (he : execInstr h ins s = .ok (f, s1))
    (hj : ins ≠ .ret ∧ (∀ a, ins ≠ .jp a) ∧ (∀ a, ins ≠ .call a) ∧ (∀ a, ins ≠ .jpv a) ∧
      ins ≠ .key) :
    s1.PC = (s.PC + 2) % 0x1000 ∨ s1.PC = (s.PC + 4) % 0x1000 := by
  obtain ⟨j1, j2, j3, j4, j5⟩ := hj
  cases ins <;> simp only [execInstr] at he
  case ret => exact absurd rfl j1
  case jp a => exact absurd rfl (j2 a)
  case call a => exact absurd rfl (j3 a)
  case jpv a => exact absurd rfl (j4 a)
  case key => exact absurd rfl j5
  case se | sne | sev | snev =>
    cases he
    split
    · exact Or.inr (land_fff _)
    · exact Or.inl (land_fff _)
  case skp | sknp =>
    split at he
    · cases he
    · cases he
      split
      · exact Or.inr (land_fff _)
      · exact Or.inl (land_fff _)
  case drw x y n =>
    cases he
    left
    show ((draw x y n s).PC + 2) &&& 0xfff = _
    rw [(draw_frame x y n s).1, land_fff]
  case bcd x =>
    split at he
    · cases he
      exact Or.inl (land_fff _)
    · cases he
  case store x =>
    cases he
    left
    show ((storeRegs x s).PC + 2) &&& 0xfff = _
    rw [(storeRegs_frame x s).1, land_fff]
  case load x =>
    cases he
    left
    show ((loadRegs x s).PC + 2) &&& 0xfff = _
    rw [(loadRegs_frame x s).1, land_fff]
  all_goals
    cases he
    exact Or.inl (land_fff _)

theorem decode_addi : ∀ x, x < 16 → decode (0xF01E + x * 256) = .addi x := by
  decide

theorem decode_jpv_aux (op nnn : Nat) (hn : nnn < 0x1000) (hop : op = 0xB000 + nnn) :
    decode op = .jpv nnn := by
  obtain ⟨m1, m2, -, m4, -, -, -, -⟩ :=
    masks_of_nibbles
      (show op = 11 * 4096 + (nnn / 256) * 256 + (nnn / 16 % 16) * 16 + nnn % 16 by omega)
      (by decide) (by omega) (by omega) (by omega)
  have c1 : ¬ op = 0x00e0 := by omega
  have c2 : ¬ op = 0x00ee := by omega
  have cA : ∀ w, w ≠ 0xb000 → (op &&& 0xf000 = w) = False :=
    fun w hw => eq_false (by rw [m1]; omega)
  have cB : ∀ w, w < 0xb000 → (op &&& 0xf00f = w) = False :=
    fun w hw => eq_false (by rw [m2]; omega)
  have cD : (op &&& 0xf000 = 0xb000) = True := eq_true (by rw [m1])
  have e : op &&& 0xfff = nnn := by rw [m4]; omega
  unfold decode
  simp only [c1, c2, cD, e, cA 0x1000 (by decide), cA 0x2000 (by decide), cA 0x3000 (by decide),
    cA 0x4000 (by decide), cA 0x6000 (by decide), cA 0x7000 (by decide), cA 0xa000 (by decide),
    cB 0x5000 (by decide), cB 0x8000 (by decide), cB 0x8001 (by decide), cB 0x8002 (by decide),
    cB 0x8003 (by decide), cB 0x8004 (by decide), cB 0x8005 (by decide), cB 0x8006 (by decide),
    cB 0x8007 (by decide), cB 0x800e (by decide), cB 0x9000 (by decide), if_false, if_true]

theorem decode_jpv (nnn : Nat) (hn : nnn < 0x1000) : decode (0xB000 + nnn) = .jpv nnn :=
  decode_jpv_aux _ nnn hn rfl

theorem addrInv_initState (chars image : List Nat) : AddrInv (initState chars image) :=
  ⟨show (0x200 : Nat) ≤ 0xfff by decide, show (0 : Nat) ≤ 0xfff by decide,
    fun a ha => absurd ha (List.not_mem_nil a)⟩

/-- C12: the predicate "`PC`, `I` and every return address on the stack are
at most `0xFFF`" holds in the initial state and is preserved by every
instruction step and by the key-release handler; a step yields a state unless
it is `00EE` on the empty stack or a key instruction with `Vx > 15`; every
instruction other than a jump, a return and `Fx0A` sets `PC` to
`(PC + 2) mod 0x1000` or `(PC + 4) mod 0x1000`; `Fx1E` sets `I` to
`(I + Vx) mod 0x1000` and `Bnnn` sets `PC` to `(V0 + nnn) mod 0x1000`. -/
theorem address_registers_masked (chars image : List Nat) (h : Host) (s : State)
    (op scancode x nnn : Nat) (hinv : AddrInv s) (hx : x < 16) (hn : nnn < 0x1000) :
    AddrInv (initState chars image) ∧
    (∀ f s1, exec h op s = .ok (f, s1) → AddrInv s1) ∧
    (∀ f s1, step h s = .ok (f, s1) → AddrInv s1) ∧
    (∀ s1, keyUp scancode s = .ok s1 → AddrInv s1) ∧
    ((∃ f s1, exec h op s = .ok (f, s1)) ∨ (decode op = .ret ∧ s.stack = []) ∨
      (∃ r, (decode op = .skp r ∨ decode op = .sknp r) ∧ 16 ≤ s.V r)) ∧
    (∀ f s1, exec h op s = .ok (f, s1) →
      (decode op ≠ .ret ∧ (∀ a, decode op ≠ .jp a) ∧ (∀ a, decode op ≠ .call a) ∧
        (∀ a, decode op ≠ .jpv a) ∧ decode op ≠ .key) →
      s1.PC = (s.PC + 2) % 0x1000 ∨ s1.PC = (s.PC + 4) % 0x1000) ∧
    exec h (0xF01E + x * 256) s
      = .ok (.next, { s with I := (s.I + s.V x) % 0x1000, PC := (s.PC + 2) % 0x1000 }) ∧
    exec h (0xB000 + nnn) s = .ok (.next, { s with PC := (s.V 0 + nnn) % 0x1000 }) := by
  refine ⟨addrInv_initState chars image,
    fun f s1 he => execInstr_addrInv h _ s f s1 (decode_wf op) hinv he,
    fun f s1 he => ?_,
    fun s1 he => keyUp_addrInv scancode s s1 hinv he,
    execInstr_ok h (decode op) s hinv.2.1,
    fun f s1 he hj => execInstr_pc h _ s f s1 he hj, ?_, ?_⟩
  · unfold step at he
    split at he
    · cases he
    · exact execInstr_addrInv h _ s f s1 (decode_wf _) hinv he
  · simp only [exec, decode_addi x hx, execInstr, advance, land_fff]
  · simp only [exec, decode_jpv nnn hn, execInstr, land_fff]

/-! ## Parity of the program counter -/

theorem evenInv_of_eq {s t : State} (h1 : t.PC = s.PC) (h3 : t.stack = s.stack)
    (h : EvenInv s) : EvenInv t := by
  unfold EvenInv at h ⊢
  rw [h1, h3]; exact h

theorem evenInv_advance {s : State} (h : EvenInv s) : EvenInv (advance s) := by
  obtain ⟨h1, h3⟩ := h
  refine ⟨?_, h3⟩
  show ((s.PC + 2) &&& 0xfff) % 2 = 0
  rw [land_fff]; omega

theorem evenInv_advance2 {s : State} (h : EvenInv s) : EvenInv (advance2 s) := by
  obtain ⟨h1, h3⟩ := h
  refine ⟨?_, h3⟩
  show ((s.PC + 4) &&& 0xfff) % 2 = 0
  rw [land_fff]; omega

theorem execInstr_evenInv (h : Host) (ins : Instr) (s : State) (f : Flow) (s1 : State)
    (hinv : EvenInv s) (hj : evenJump s ins) (he : execInstr h ins s = .ok (f, s1)) :
    EvenInv s1 := by
  cases ins <;> simp only [execInstr] at he
  case ret =>
    split at he
    · cases he
    · rename_i top rest hs
      cases he
      refine ⟨hinv.2 top (by rw [hs]; exact List.mem_cons_self _ _), fun a ha => ?_⟩
      exact hinv.2 a (by rw [hs]; exact List.mem_cons_of_mem _ ha)
  case jp addr =>
    cases he
    exact ⟨hj, hinv.2⟩
  case call addr =>
    cases he
    refine ⟨hj, fun a ha => ?_⟩
    rcases List.mem_cons.1 ha with e | ha
    · rw [e]; exact (evenInv_advance hinv).1
    · exact hinv.2 a ha
  case se | sne | sev | snev =>
    cases he
    split
    · exact evenInv_advance2 hinv
    · exact evenInv_advance hinv
  case jpv addr =>
    cases he
    refine ⟨?_, hinv.2⟩
    show ((s.V 0 + addr) &&& 0xfff) % 2 = 0
    rw [land_fff]; exact hj
  case drw x y n =>
    cases he
    obtain ⟨f1, -, f3, -⟩ := draw_frame x y n s
    exact evenInv_advance (evenInv_of_eq f1 f3 hinv)
  case skp | sknp =>
    split at he
    · cases he
    · cases he
      split
      · exact evenInv_advance2 hinv
      · exact evenInv_advance hinv
  case key =>
    cases he
    exact hinv
  case bcd x =>
    split at he
    · cases he
      exact evenInv_advance hinv
    · cases he
  case store x =>
    cases he
    obtain ⟨f1, -, f3, -⟩ := storeRegs_frame x s
    exact evenInv_advance (evenInv_of_eq f1 f3 hinv)
  case load x =>
    cases he
    obtain ⟨f1, -, f3, -⟩ := loadRegs_frame x s
    exact evenInv_advance (evenInv_of_eq f1 f3 hinv)
  all_goals
    cases he
    exact evenInv_advance hinv

theorem step_evenInv (h : Host) (s : State) (f : Flow) (s1 : State) (hinv : EvenInv s)
    (hj : evenJumpAt s) (he : step h s = .ok (f, s1)) : EvenInv s1 := by
  unfold step at he
  unfold evenJumpAt at hj
  split at he
  · cases he
  · rename_i op hf
    rw [hf] at hj
    exact execInstr_evenInv h _ s f s1 hinv hj he

theorem burst_evenInv (host : Nat → Host) :
    ∀ (left n : Nat) (s s1 : State), EvenInv s → evenBurst host left n s →
      burst host left n s = .ok s1 → EvenInv s1 := by
  intro left
  induction left with
  | zero =>
    intro n s s1 hinv _ he
    simp only [burst] at he
    cases he
    exact hinv
  | succ k ih =>
    intro n s s1 hinv hb he
    simp only [burst] at he
    simp only [evenBurst] at hb
    obtain ⟨hj, hrest⟩ := hb
    split at he
    · cases he
    · rename_i t hs
      cases he
      exact step_evenInv (host n) s .brk _ hinv hj hs
    · rename_i t hs
      rw [hs] at hrest
      exact ih (n + 1) t s1 (step_evenInv (host n) s .next t hinv hj hs) hrest he

theorem timers_frame (s : State) :
    (timers s).1.PC = s.PC ∧ (timers s).1.stack = s.stack ∧ (timers s).1.I = s.I ∧
    (timers s).1.waiting_for_key = s.waiting_for_key := by
  unfold timers
  dsimp only
  split <;> split <;> (try split) <;> exact ⟨rfl, rfl, rfl, rfl⟩

theorem userEvent_evenInv (host : Nat → Host) (s s1 : State) (hinv : EvenInv s)
    (hb : evenBurst host insts_per_tick 0 (timers s).1)
    (he : (userEvent host s).next = .ok s1) : EvenInv s1 := by
  obtain ⟨f1, f2, -, -⟩ := timers_frame s
  have ht : EvenInv (timers s).1 := evenInv_of_eq f1 f2 hinv
  unfold userEvent at he
  dsimp only at he
  split at he
  · cases he
    exact ht
  · exact burst_evenInv host _ _ _ _ ht hb he

theorem keyUp_evenInv (scancode : Nat) (s s1 : State) (hinv : EvenInv s)
    (he : keyUp scancode s = .ok s1) : EvenInv s1 := by
  unfold keyUp at he
  split at he
  · dsimp only at he
    split at he
    · split at he
      · cases he
        exact evenInv_advance hinv
      · cases he
    · cases he
      exact hinv
  · cases he
    exact hinv

theorem evenRun_evenInv (chars image : List Nat) (s : State) (hr : EvenRun chars image s) :
    EvenInv s := by
  induction hr with
  | init =>
    exact ⟨show (0x200 : Nat) % 2 = 0 by decide, fun a ha => absurd ha (List.not_mem_nil a)⟩
  | step h s f s1 _ hj he ih => exact step_evenInv h s f s1 ih hj he
  | tick host s s1 _ hb he ih => exact userEvent_evenInv host s s1 ih hb he
  | key sc s s1 _ he ih => exact keyUp_evenInv sc s s1 ih he

/-- C11 as stated fails: the program `1201` jumps from the initial state to
the odd address `0x201`. -/
theorem pc_even_counterexample :
    ∃ s1, step exHost (initState [] [0x12, 0x01]) = .ok (.next, s1) ∧ s1.PC % 2 = 1 :=
  ⟨_, rfl, rfl⟩

/-- C11, amended: `PC` is even in every state reached from the initial state
(with any loaded program image) by instruction steps, ticks and key-release
events in which no executed `1nnn` or `2nnn` has an odd `nnn` and no executed
`Bnnn` an odd `(V0 + nnn) mod 0x1000`. -/
theorem pc_even_without_odd_jump (chars image : List Nat) (s : State)
    (hr : EvenRun chars image s) : s.PC % 2 = 0 :=
  (evenRun_evenInv chars image s hr).1

/-- The amended C11 after one step of the program `1204`. -/
theorem pc_even_without_odd_jump_witness :
    ({ initState [] [0x12, 0x04] with PC := 0x204 } : State).PC % 2 = 0 :=
  pc_even_without_odd_jump [] [0x12, 0x04] _
    (EvenRun.step exHost (initState [] [0x12, 0x04]) .next _ EvenRun.init
      (show (0x204 : Nat) % 2 = 0 by decide) rfl)

/-! ## Memory and register transfers -/

theorem decode_cond (op : Nat) : branchCond op (decode op) := by
  unfold decode
  repeat' refine ite_cases (fun c => ?_) (fun _ => ?_)
  all_goals first
    | exact trivial
    | exact ‹_›

/-- Effect of the loop of `Fx55`. -/
theorem storeRegs_spec (x : Nat) (s : State) (hx : x < 16) :
    (∀ i, i < x + 1 → (storeRegs x s).mem ((s.I + i) % 0x1000) = s.V i) ∧
    (∀ a, (∀ i, i < x + 1 → a ≠ (s.I + i) % 0x1000) → (storeRegs x s).mem a = s.mem a) := by
  have key := foldl_range_inv
    (fun (t : State) i => { t with mem := upd t.mem ((t.I + i) &&& 0xfff) (t.V i) })
    (fun k t => t.I = s.I ∧ t.V = s.V ∧
      (∀ i, i < k → t.mem ((s.I + i) % 0x1000) = s.V i) ∧
      (∀ a, (∀ i, i < k → a ≠ (s.I + i) % 0x1000) → t.mem a = s.mem a))
    s (x + 1) ⟨rfl, rfl, fun i hi => absurd hi (Nat.not_lt_zero i), fun _ _ => rfl⟩ ?_
  · exact ⟨key.2.2.1, key.2.2.2⟩
  · intro k t hk ⟨hI, hV, hw, hf⟩
    refine ⟨hI, hV, fun i hi => ?_, fun a ha => ?_⟩
    · show upd t.mem ((t.I + k) &&& 0xfff) (t.V k) ((s.I + i) % 0x1000) = s.V i
      rw [land_fff, hI, hV]
      by_cases hik : i = k
      · subst hik; simp only [upd, if_true]
      · have hne : ¬ ((s.I + i) % 0x1000 = (s.I + k) % 0x1000) := by omega
        simp only [upd, hne, if_false]
        exact hw i (by omega)
    · show upd t.mem ((t.I + k) &&& 0xfff) (t.V k) a = s.mem a
      rw [land_fff, hI]
      have hne : ¬ (a = (s.I + k) % 0x1000) := ha k (Nat.lt_succ_self k)
      simp only [upd, hne, if_false]
      exact hf a (fun i hi => ha i (Nat.lt_succ_of_lt hi))

/-- Effect of the loop of `Fx65`. -/
theorem loadRegs_spec (x : Nat) (s : State) :
    (∀ i, i < x + 1 → (loadRegs x s).V i = s.mem ((s.I + i) % 0x1000)) ∧
    (∀ j, x + 1 ≤ j → (loadRegs x s).V j = s.V j) := by
  have key := foldl_range_inv
    (fun (t : State) i => { t with V := upd t.V i (t.mem ((t.I + i) &&& 0xfff)) })
    (fun k t => t.I = s.I ∧ t.mem = s.mem ∧
      (∀ i, i < k → t.V i = s.mem ((s.I + i) % 0x1000)) ∧ (∀ j, k ≤ j → t.V j = s.V j))
    s (x + 1) ⟨rfl, rfl, fun i hi => absurd hi (Nat.not_lt_zero i), fun _ _ => rfl⟩ ?_
  · exact ⟨key.2.2.1, key.2.2.2⟩
  · intro k t _ ⟨hI, hm, hw, hf⟩
    refine ⟨hI, hm, fun i hi => ?_, fun j hj => ?_⟩
    · show upd t.V k (t.mem ((t.I + k) &&& 0xfff)) i = s.mem ((s.I + i) % 0x1000)
      rw [land_fff, hI, hm]
      by_cases hik : i = k
      · subst hik; simp only [upd, if_true]
      · simp only [upd, hik, if_false]
        exact hw i (by omega)
    · show upd t.V k (t.mem ((t.I + k) &&& 0xfff)) j = s.V j
      have hne : ¬ (j = k) := by omega
      simp only [upd, hne, if_false]
      exact hf j (by omega)

theorem execInstr_mem (h : Host) (ins : Instr) (s : State) (f : Flow) (s1 : State)
    (hw : ins.WF) (he : execInstr h ins s = .ok (f, s1)) :
    (∀ a, (∀ i, i < 16 → a ≠ (s.I + i) % 0x1000) → s1.mem a = s.mem a) ∧
    ((∀ x, ins ≠ .bcd x) → (∀ x, ins ≠ .store x) → s1.mem = s.mem) := by
  cases ins <;> simp only [execInstr] at he
  case ret =>
    split at he
    · cases he
    · cases he
      exact ⟨fun _ _ => rfl, fun _ _ => rfl⟩
  case se | sne | sev | snev =>
    cases he
    constructor
    · intro a _
      split <;> rfl
    · intro _ _
      split <;> rfl
  case skp | sknp =>
    split at he
    · cases he
    · cases he
      constructor
      · intro a _
        split <;> rfl
      · intro _ _
        split <;> rfl
  case drw x y n =>
    cases he
    have hm := (draw_frame x y n s).2.2.2
    exact ⟨fun a _ => congrFun hm a, fun _ _ => hm⟩
  case bcd x =>
    split at he
    · rename_i hI
      cases he
      refine ⟨fun a ha => ?_, fun hb _ => absurd rfl (hb x)⟩
      have h0 : ¬ (a = s.I) := by
        have := ha 0 (by decide)
        simp only [Nat.add_zero] at this
        rwa [Nat.mod_eq_of_lt hI] at this
      have h1 : ¬ (a = (s.I + 1) &&& 0xfff) := by rw [land_fff]; exact ha 1 (by decide)
      have h2 : ¬ (a = (s.I + 2) &&& 0xfff) := by rw [land_fff]; exact ha 2 (by decide)
      show upd (upd (upd s.mem _ _) _ _) _ _ a = s.mem a
      simp only [upd, h0, h1, h2, if_false]
    · cases he
  case store x =>
    cases he
    refine ⟨fun a ha => ?_, fun _ hs => absurd rfl (hs x)⟩
    exact (storeRegs_spec x s hw).2 a (fun i hi => ha i (by have : x < 16 := hw; omega))
  case load x =>
    cases he
    have hm := (loadRegs_frame x s).2.2.2.1
    exact ⟨fun a _ => congrFun hm a, fun _ _ => hm⟩
  all_goals
    cases he
    exact ⟨fun _ _ => rfl, fun _ _ => rfl⟩

theorem decode_bcd : ∀ x, x < 16 → decode (0xF033 + x * 256) = .bcd x := by
  decide

theorem decode_store : ∀ x, x < 16 → decode (0xF055 + x * 256) = .store x := by
  decide

theorem decode_load : ∀ x, x < 16 → decode (0xF065 + x * 256) = .load x := by
  decide

/-- C13 as stated fails: `F055` with `I = 0` and `V0 = 7` overwrites the
byte at address 0, which lies below `0x200`. -/
theorem font_region_counterexample :
    ∃ s1, exec exHost 0xF055 { exState with V := fun _ => 7 } = .ok (.next, s1) ∧
      (0 : Nat) < 0x200 ∧ s1.mem 0 = 7 ∧ ({ exState with V := fun _ => 7 } : State).mem 0 = 0 :=
  ⟨_, rfl, by decide, rfl, rfl⟩

/-- C13, amended: one instruction step leaves unchanged every memory byte
whose address is not `(I + i) mod 0x1000` for some `i < 16`, and leaves all of
memory unchanged unless the opcode is `Fx33` or `Fx55`; so every byte below
`0x200` is unchanged by every opcode when `0x200 ≤ I ≤ 0xFF0`, and by every
opcode other than `Fx33` and `Fx55` whatever `I` is. -/
theorem step_memory_frame (h : Host) (op : Nat) (s : State) (f : Flow) (s1 : State)
    (he : exec h op s = .ok (f, s1)) :
    (∀ a, (∀ i, i < 16 → a ≠ (s.I + i) % 0x1000) → s1.mem a = s.mem a) ∧
    (op &&& 0xf0ff ≠ 0xf033 → op &&& 0xf0ff ≠ 0xf055 → s1.mem = s.mem) ∧
    (0x200 ≤ s.I → s.I ≤ 0xff0 → ∀ a, a < 0x200 → s1.mem a = s.mem a) := by
  obtain ⟨h1, h2⟩ := execInstr_mem h (decode op) s f s1 (decode_wf op) he
  refine ⟨h1, fun hb hs => h2 (fun x hd => hb ?_) (fun x hd => hs ?_),
    fun hlo hhi a ha => h1 a (fun i hi => by omega)⟩
  · have := decode_cond op
    rw [hd] at this
    exact this
  · have := decode_cond op
    rw [hd] at this
    exact this

/-- The amended C13 at `F033` with `I = 0x300`. -/
theorem step_memory_frame_witness :
    (∀ a, (∀ i, i < 16 → a ≠ (0x300 + i) % 0x1000) →
      (advance { exState with
        I := 0x300,
        mem := upd (upd (upd exState.mem 0x300 0) 0x301 0) 0x302 0 }).mem a = exState.mem a) ∧
    ((0xF033 : Nat) &&& 0xf0ff ≠ 0xf033 → (0xF033 : Nat) &&& 0xf0ff ≠ 0xf055 →
      (advance { exState with
        I := 0x300,
        mem := upd (upd (upd exState.mem 0x300 0) 0x301 0) 0x302 0 }).mem = exState.mem) ∧
    ((0x200 : Nat) ≤ 0x300 → (0x300 : Nat) ≤ 0xff0 → ∀ a, a < 0x200 →
      (advance { exState with
        I := 0x300,
        mem := upd (upd (upd exState.mem 0x300 0) 0x301 0) 0x302 0 }).mem a = exState.mem a) :=
  step_memory_frame exHost 0xF033 { exState with I := 0x300 } .next _ rfl

theorem decode_ld_aux (op x kk : Nat) (hx : x < 16) (hk : kk < 256)
    (hop : op = 0x6000 + x * 256 + kk) : decode op = .ld x kk := by
  obtain ⟨m1, m2, -, -, m5, -, m7, -⟩ :=
    masks_of_nibbles (show op = 6 * 4096 + x * 256 + (kk / 16) * 16 + kk % 16 by omega)
      (by decide) hx (by omega) (by omega)
  have c1 : ¬ op = 0x00e0 := by omega
  have c2 : ¬ op = 0x00ee := by omega
  have cA : ∀ w, w ≠ 0x6000 → (op &&& 0xf000 = w) = False :=
    fun w hw => eq_false (by rw [m1]; omega)
  have cB : ∀ w, w < 0x6000 → (op &&& 0xf00f = w) = False :=
    fun w hw => eq_false (by rw [m2]; omega)
  have cD : (op &&& 0xf000 = 0x6000) = True := eq_true (by rw [m1])
  have e : op &&& 0xff = kk := by rw [m5]; omega
  unfold decode
  simp only [c1, c2, cD, e, m7, cA 0x1000 (by decide), cA 0x2000 (by decide),
    cA 0x3000 (by decide), cA 0x4000 (by decide), cB 0x5000 (by decide), if_false, if_true]

theorem decode_ld (x kk : Nat) (hx : x < 16) (hk : kk < 256) :
    decode (0x6000 + x * 256 + kk) = .ld x kk :=
  decode_ld_aux _ x kk hx hk rfl

/-- C14: `6xkk` sets `Vx = kk` and `PC = (PC + 2) mod 0x1000` and changes
nothing else. -/
theorem load_immediate (h : Host) (s : State) (x kk : Nat) (hx : x < 16) (hk : kk < 256) :
    exec h (0x6000 + x * 256 + kk) s
      = .ok (.next, { s with V := upd s.V x kk, PC := (s.PC + 2) % 0x1000 }) ∧
    (∀ j, j ≠ x → upd s.V x kk j = s.V j) ∧ upd s.V x kk x = kk := by
  refine ⟨by simp only [exec, decode_ld x kk hx hk, execInstr, advance, land_fff],
    fun j hj => by simp only [upd, hj, if_false], by simp only [upd, if_true]⟩

/-- C14 at `63AB`. -/
theorem load_immediate_witness :
    exec exHost (0x6000 + 3 * 256 + 0xAB) exState
      = .ok (.next, { exState with V := upd exState.V 3 0xAB,
                                   PC := (exState.PC + 2) % 0x1000 }) ∧
    (∀ j, j ≠ 3 → upd exState.V 3 0xAB j = exState.V j) ∧ upd exState.V 3 0xAB 3 = 0xAB :=
  load_immediate exHost exState 3 0xAB (by decide) (by decide)

/-- C17: with `I ≤ 0xFFF`, `Fx33` leaves at `I`, `(I + 1) mod 0x1000` and
`(I + 2) mod 0x1000` three bytes `h`, `t`, `o`, each at most 9, with
`100 * h + 10 * t + o = Vx`; every other memory byte, every register and `I`
are unchanged. -/
theorem bcd_digits (h : Host) (s : State) (x : Nat) (hx : x < 16) (hI : s.I ≤ 0xfff)
    (hv : s.V x < 256) :
    ∃ s1 hd t o, exec h (0xF033 + x * 256) s = .ok (.next, s1) ∧
      s1.mem s.I = hd ∧ s1.mem ((s.I + 1) % 0x1000) = t ∧ s1.mem ((s.I + 2) % 0x1000) = o ∧
      hd ≤ 9 ∧ t ≤ 9 ∧ o ≤ 9 ∧ 100 * hd + 10 * t + o = s.V x ∧
      (∀ a, a ≠ s.I → a ≠ (s.I + 1) % 0x1000 → a ≠ (s.I + 2) % 0x1000 →
        s1.mem a = s.mem a) ∧
      s1.V = s.V ∧ s1.I = s.I := by
  have hI' : s.I < 0x1000 := by omega
  have he : exec h (0xF033 + x * 256) s = .ok (.next, advance { s with
      mem := upd (upd (upd s.mem s.I (s.V x / 100)) ((s.I + 1) &&& 0xfff) ((s.V x % 100) / 10))
        ((s.I + 2) &&& 0xfff) (s.V x % 10) }) := by
    simp only [exec, decode_bcd x hx, execInstr, hI', if_true]
  refine ⟨_, _, _, _, he, rfl, rfl, rfl, ?_, ?_, ?_, ?_, ?_, rfl, rfl⟩
  · show upd (upd (upd s.mem s.I _) ((s.I + 1) &&& 0xfff) _) ((s.I + 2) &&& 0xfff) _ s.I ≤ 9
    have h1 : ¬ (s.I = (s.I + 1) &&& 0xfff) := by rw [land_fff]; omega
    have h2 : ¬ (s.I = (s.I + 2) &&& 0xfff) := by rw [land_fff]; omega
    simp only [upd, h1, h2, if_false, if_true]
    omega
  · show upd (upd (upd s.mem s.I _) ((s.I + 1) &&& 0xfff) _) ((s.I + 2) &&& 0xfff) _
      ((s.I + 1) % 0x1000) ≤ 9
    have h2 : ¬ ((s.I + 1) % 0x1000 = (s.I + 2) % 0x1000) := by omega
    simp only [land_fff, upd, h2, if_false, if_true]
    omega
  · show upd (upd (upd s.mem s.I _) ((s.I + 1) &&& 0xfff) _) ((s.I + 2) &&& 0xfff) _
      ((s.I + 2) % 0x1000) ≤ 9
    simp only [land_fff, upd, if_true]
    omega
  · show 100 * upd (upd (upd s.mem s.I _) ((s.I + 1) &&& 0xfff) _) ((s.I + 2) &&& 0xfff) _ s.I
      + 10 * upd (upd (upd s.mem s.I _) ((s.I + 1) &&& 0xfff) _) ((s.I + 2) &&& 0xfff) _
          ((s.I + 1) % 0x1000)
      + upd (upd (upd s.mem s.I _) ((s.I + 1) &&& 0xfff) _) ((s.I + 2) &&& 0xfff) _
          ((s.I + 2) % 0x1000) = s.V x
    have h1 : ¬ (s.I = (s.I + 1) % 0x1000) := by omega
    have h2 : ¬ (s.I = (s.I + 2) % 0x1000) := by omega
    have h3 : ¬ ((s.I + 1) % 0x1000 = (s.I + 2) % 0x1000) := by omega
    simp only [land_fff, upd, h1, h2, h3, if_false, if_true]
    omega
  · intro a a0 a1 a2
    show upd (upd (upd s.mem s.I _) ((s.I + 1) &&& 0xfff) _) ((s.I + 2) &&& 0xfff) _ a = s.mem a
    simp only [land_fff, upd, a0, a1, a2, if_false]

/-- C17 at `F033` with `V0 = 254` and `I = 0x300`. -/
theorem bcd_digits_witness :
    ∃ s1 hd t o, exec exHost (0xF033 + 0 * 256) { exState with V := fun _ => 254, I := 0x300 }
        = .ok (.next, s1) ∧
      s1.mem 0x300 = hd ∧ s1.mem ((0x300 + 1) % 0x1000) = t ∧
      s1.mem ((0x300 + 2) % 0x1000) = o ∧
      hd ≤ 9 ∧ t ≤ 9 ∧ o ≤ 9 ∧ 100 * hd + 10 * t + o = 254 ∧
      (∀ a, a ≠ 0x300 → a ≠ (0x300 + 1) % 0x1000 → a ≠ (0x300 + 2) % 0x1000 →
        s1.mem a = exState.mem a) ∧
      s1.V = (fun _ => 254) ∧ s1.I = 0x300 :=
  bcd_digits exHost { exState with V := fun _ => 254, I := 0x300 } 0 (by decide) (by decide)
    (by decide)

/-- C18: `Fx55` stores `Vi` at `(I + i) mod 0x1000` for each `i ≤ x` and leaves
`I`, the registers and every other memory byte unchanged; `Fx65` with the same
`x` in any state with the same `I` and that memory sets `Vi` back to the stored
value for each `i ≤ x` and leaves the registers above `x`, `I` and memory
unchanged. -/
theorem store_then_load (h : Host) (s : State) (x : Nat) (hx : x < 16) :
    ∃ s1, exec h (0xF055 + x * 256) s = .ok (.next, s1) ∧
      (∀ i, i ≤ x → s1.mem ((s.I + i) % 0x1000) = s.V i) ∧
      (∀ a, (∀ i, i ≤ x → a ≠ (s.I + i) % 0x1000) → s1.mem a = s.mem a) ∧
      s1.I = s.I ∧ s1.V = s.V ∧
      ∀ (h' : Host) (t : State), t.I = s.I → t.mem = s1.mem →
        ∃ t1, exec h' (0xF065 + x * 256) t = .ok (.next, t1) ∧
          (∀ i, i ≤ x → t1.V i = s.V i) ∧ (∀ j, x < j → t1.V j = t.V j) ∧
          t1.I = t.I ∧ t1.mem = t.mem := by
  obtain ⟨hw, hf⟩ := storeRegs_spec x s hx
  obtain ⟨-, fI, -, fV, -⟩ := storeRegs_frame x s
  have he : exec h (0xF055 + x * 256) s = .ok (.next, advance (storeRegs x s)) := by
    simp only [exec, decode_store x hx, execInstr]
  refine ⟨_, he, fun i hi => hw i (by omega),
    fun a ha => hf a (fun i hi => ha i (by omega)), fI, fV, fun h' t hI hm => ?_⟩
  obtain ⟨lw, lf⟩ := loadRegs_spec x t
  obtain ⟨-, gI, -, gm, -⟩ := loadRegs_frame x t
  have he' : exec h' (0xF065 + x * 256) t = .ok (.next, advance (loadRegs x t)) := by
    simp only [exec, decode_load x hx, execInstr]
  refine ⟨_, he', fun i hi => ?_,
    fun j hj => lf j (by omega), gI, gm⟩
  show (loadRegs x t).V i = s.V i
  rw [lw i (by omega), hI, hm]
  exact hw i (by omega)

/-- C18 at `F255` and `F265`. -/
theorem store_then_load_witness :
    ∃ s1, exec exHost (0xF055 + 2 * 256) { exState with V := fun j => j + 1, I := 0xfff }
        = .ok (.next, s1) ∧
      (∀ i, i ≤ 2 → s1.mem ((0xfff + i) % 0x1000) = i + 1) ∧
      (∀ a, (∀ i, i ≤ 2 → a ≠ (0xfff + i) % 0x1000) → s1.mem a = exState.mem a) ∧
      s1.I = 0xfff ∧ s1.V = (fun j => j + 1) ∧
      ∀ (h' : Host) (t : State), t.I = 0xfff → t.mem = s1.mem →
        ∃ t1, exec h' (0xF065 + 2 * 256) t = .ok (.next, t1) ∧
          (∀ i, i ≤ 2 → t1.V i = i + 1) ∧ (∀ j, 2 < j → t1.V j = t.V j) ∧
          t1.I = t.I ∧ t1.mem = t.mem :=
  store_then_load exHost { exState with V := fun j => j + 1, I := 0xfff } 2 (by decide)

/-! ## Display conversion -/

/-- Byte offsets of distinct pixels are distinct when rows are at least
256 bytes apart. -/
theorem offset_inj {pitch r r' a a' : Nat} (hp : 256 ≤ pitch) (ha : a < 256) (ha' : a' < 256)
    (h : r * pitch + a = r' * pitch + a') : r = r' ∧ a = a' := by
  rcases Nat.lt_trichotomy r r' with hlt | heq | hgt
  · have h1 : (r + 1) * pitch ≤ r' * pitch := Nat.mul_le_mul_right pitch hlt
    rw [Nat.add_mul, Nat.one_mul] at h1
    omega
  · subst heq
    exact ⟨rfl, by omega⟩
  · have h1 : (r' + 1) * pitch ≤ r * pitch := Nat.mul_le_mul_right pitch hgt
    rw [Nat.add_mul, Nat.one_mul] at h1
    omega

theorem renderPixel_at (fb : Nat → Nat → Bool) (pitch row col : Nat) (px : Nat → Nat) (k : Nat)
    (hk : k < 4) :
    renderPixel fb pitch row col px (row * pitch + col * 4 + k)
      = if fb row col = true then 0xff else 0 := by
  unfold renderPixel
  have e1 : ¬ (row * pitch + col * 4 + 1 = row * pitch + col * 4) := by omega
  have e2 : ¬ (row * pitch + col * 4 + 2 = row * pitch + col * 4) := by omega
  have e3 : ¬ (row * pitch + col * 4 + 3 = row * pitch + col * 4) := by omega
  have k4 : k = 0 ∨ k = 1 ∨ k = 2 ∨ k = 3 := by omega
  cases hfb : fb row col <;> rcases k4 with rfl | rfl | rfl | rfl <;>
    simp [upd]

theorem renderPixel_other (fb : Nat → Nat → Bool) (pitch row col : Nat) (px : Nat → Nat)
    (o : Nat) (ho : ∀ k, k < 4 → o ≠ row * pitch + col * 4 + k) :
    renderPixel fb pitch row col px o = px o := by
  unfold renderPixel
  have o0 : ¬ (o = row * pitch + col * 4) := ho 0 (by decide)
  have o1 : ¬ (o = row * pitch + col * 4 + 1) := ho 1 (by decide)
  have o2 : ¬ (o = row * pitch + col * 4 + 2) := ho 2 (by decide)
  have o3 : ¬ (o = row * pitch + col * 4 + 3) := ho 3 (by decide)
  cases hfb : fb row col <;> simp [upd, o0, o1, o2, o3]

/-- Bytes of the texture after the conversion. -/
theorem render_byte (fb : Nat → Nat → Bool) (pitch : Nat) (px : Nat → Nat) (hp : 256 ≤ pitch)
    (row col k : Nat) (hr : row < 32) (hc : col < 64) (hk : k < 4) :
    render fb pitch px (row * pitch + col * 4 + k) = if fb row col = true then 0xff else 0 := by
  have key := foldl_range_inv
    (fun px row => (List.range 64).foldl (fun px col => renderPixel fb pitch row col px) px)
    (fun i p => ∀ r c k, r < i → c < 64 → k < 4 →
      p (r * pitch + c * 4 + k) = if fb r c = true then 0xff else 0)
    px 32 (fun r c k h => absurd h (Nat.not_lt_zero r)) ?_
  · exact key row col k hr hc hk
  · intro i p _ hP
    have inner := foldl_range_inv (fun px col => renderPixel fb pitch i col px)
      (fun j p => ∀ r c k, (r < i ∨ (r = i ∧ c < j)) → c < 64 → k < 4 →
        p (r * pitch + c * 4 + k) = if fb r c = true then 0xff else 0)
      p 64 ?_ ?_
    · intro r c k hr' hc' hk'
      exact inner r c k (by omega) hc' hk'
    · intro r c k hr' hc' hk'
      rcases hr' with h1 | ⟨-, h2⟩
      · exact hP r c k h1 hc' hk'
      · exact absurd h2 (Nat.not_lt_zero c)
    · intro j q hj hQ r c k hrc hc' hk'
      show renderPixel fb pitch i j q (r * pitch + c * 4 + k) = _
      by_cases hcur : r = i ∧ c = j
      · obtain ⟨e1, e2⟩ := hcur
        subst e1; subst e2
        exact renderPixel_at fb pitch r c q k hk'
      · rw [renderPixel_other]
        · exact hQ r c k (by omega) hc' hk'
        · intro k' hk'' heq
          have h4 : r * pitch + (c * 4 + k) = i * pitch + (j * 4 + k') := by omega
          obtain ⟨e1, e2⟩ := offset_inj hp (by omega) (by omega) h4
          exact hcur ⟨e1, by omega⟩

/-- C15 as stated fails for a false pixel: after converting an all-false
framebuffer all four bytes of pixel `(0, 0)` are `0x00`, so none of them is an
alpha byte `0xFF`. -/
theorem display_alpha_counterexample :
    render (fun _ _ => false) 256 (fun _ => 0xAA) (0 * 256 + 0 * 4 + 0) = 0 ∧
    render (fun _ _ => false) 256 (fun _ => 0xAA) (0 * 256 + 0 * 4 + 1) = 0 ∧
    render (fun _ _ => false) 256 (fun _ => 0xAA) (0 * 256 + 0 * 4 + 2) = 0 ∧
    render (fun _ _ => false) 256 (fun _ => 0xAA) (0 * 256 + 0 * 4 + 3) = 0 :=
  ⟨render_byte (fun _ _ => false) 256 (fun _ => 0xAA) (by decide) 0 0 0 (by decide) (by decide)
      (by decide),
   render_byte (fun _ _ => false) 256 (fun _ => 0xAA) (by decide) 0 0 1 (by decide) (by decide)
      (by decide),
   render_byte (fun _ _ => false) 256 (fun _ => 0xAA) (by decide) 0 0 2 (by decide) (by decide)
      (by decide),
   render_byte (fun _ _ => false) 256 (fun _ => 0xAA) (by decide) 0 0 3 (by decide) (by decide)
      (by decide)⟩

/-- C15, amended: for a texture whose rows are at least 256 bytes apart, the
conversion leaves at offsets `row*pitch + col*4 .. +3` four bytes `0xFF` for a
true pixel (white, full alpha) and four bytes `0x00` for a false pixel (black
with alpha 0). -/
theorem display_conversion (fb : Nat → Nat → Bool) (pitch : Nat) (px : Nat → Nat)
    (row col k : Nat) (hp : 256 ≤ pitch) (hr : row < 32) (hc : col < 64) (hk : k < 4) :
    render fb pitch px (row * pitch + col * 4 + k) = if fb row col = true then 0xff else 0 :=
  render_byte fb pitch px hp row col k hr hc hk

/-- The amended C15 at pixel `(31, 63)` of a framebuffer with that pixel set. -/
theorem display_conversion_witness :
    render (fun r c => decide (r = 31 ∧ c = 63)) 256 (fun _ => 0) (31 * 256 + 63 * 4 + 3)
      = if (fun r c => decide (r = 31 ∧ c = 63)) 31 63 = true then 0xff else 0 :=
  display_conversion (fun r c => decide (r = 31 ∧ c = 63)) 256 (fun _ => 0) 31 63 3
    (by decide) (by decide) (by decide) (by decide)

/-! ## The key table -/

theorem keyUp_not_found (scancode : Nat) (s : State) (h : scancode ∉ keys) :
    keyUp scancode s = .ok s := by
  have hi : keys.indexOf scancode = keys.length := List.indexOf_of_not_mem h
  unfold keyUp
  split
  · simp only [hi, ne_eq, not_true_eq_false, if_false]
  · rfl

/-- C16: the key table has 16 pairwise distinct entries; the lookup of the
key-release handler (first position of the identifier in the table) applied
to the identifier at position `k` returns `k`, and for an identifier absent
from the table it returns the end of the table (not found), in which case the
handler ignores the event. -/
theorem key_table_bijection :
    keys.length = 16 ∧ keys.Nodup ∧
    (∀ k, k < 16 → ∀ sc, keys[k]? = some sc → keys.indexOf sc = k) ∧
    (∀ sc, sc ∉ keys → keys.indexOf sc = keys.length) ∧
    (∀ sc s, sc ∉ keys → keyUp sc s = .ok s) :=
  ⟨rfl, by decide, keys_indexOf, fun _ h => List.indexOf_of_not_mem h,
    fun sc s h => keyUp_not_found sc s h⟩

/-- C20, evaluated at the failing input: `E09E` with `V0 = 16` subscripts the
16-entry key table at 16, past its end. -/
theorem key_query_out_of_range :
    exec exHost 0xE09E { exState with V := fun _ => 16 } = .error (.keysIndex 16) ∧
    exec exHost 0xE0A1 { exState with V := fun _ => 16 } = .error (.keysIndex 16) ∧
    keys.length = 16 :=
  ⟨rfl, rfl, rfl⟩

theorem decode_skp : ∀ x, x < 16 → decode (0xE09E + x * 256) = .skp x := by
  decide

theorem decode_sknp : ∀ x, x < 16 → decode (0xE0A1 + x * 256) = .sknp x := by
  decide

/-- Behaviour of `Ex9E` and `ExA1` for `Vx` within the key table: the query
is made at position `Vx < 16` and `PC` advances by 4 or by 2. -/
theorem key_query_in_range (h : Host) (s : State) (x : Nat) (hx : x < 16)
    (hv : s.V x < 16) :
    ∃ sc, keys[s.V x]? = some sc ∧
      exec h (0xE09E + x * 256) s
        = .ok (.next, if h.state sc = 1 then advance2 s else advance s) ∧
      exec h (0xE0A1 + x * 256) s
        = .ok (.next, if h.state sc = 0 then advance2 s else advance s) := by
  have hl : s.V x < keys.length := hv
  refine ⟨keys[s.V x], List.getElem?_eq_getElem hl, ?_, ?_⟩
  · simp only [exec, decode_skp x hx, execInstr, List.getElem?_eq_getElem hl]
  · simp only [exec, decode_sknp x hx, execInstr, List.getElem?_eq_getElem hl]

/-- C12 at the state after initialisation. -/
theorem address_registers_masked_witness :
    AddrInv exState ∧
    exec exHost (0xF01E + 2 * 256) exState
      = .ok (.next, { exState with I := (exState.I + exState.V 2) % 0x1000,
                                   PC := (exState.PC + 2) % 0x1000 }) ∧
    exec exHost (0xB000 + 0xffe) exState
      = .ok (.next, { exState with PC := (exState.V 0 + 0xffe) % 0x1000 }) :=
  ⟨⟨by decide, by decide, fun a ha => absurd ha (List.not_mem_nil a)⟩,
   (address_registers_masked [] [] exHost exState 0x00e0 0 2 0xffe
      ⟨by decide, by decide, fun a ha => absurd ha (List.not_mem_nil a)⟩
      (by decide) (by decide)).2.2.2.2.2.2⟩

/-! ## Array subscripts stay within bounds -/

theorem drawPixelAcc_inBounds (x y n b : Nat) (p : State × List Access) (hx : x < 16)
    (hy : y < 16) (hp : ∀ a ∈ p.2, a.inBounds) :
    ∀ a ∈ (drawPixelAcc x y n b p).2, a.inBounds := by
  intro a ha
  unfold drawPixelAcc at ha
  dsimp only at ha
  rcases List.mem_append.1 ha with h1 | h2
  · rcases List.mem_append.1 h1 with h0 | h3
    · exact hp a h0
    · simp only [List.mem_cons, List.mem_singleton, List.not_mem_nil, or_false] at h3
      rcases h3 with rfl | rfl | rfl
      · exact hy
      · exact hx
      · exact ⟨Nat.mod_lt _ (by decide), Nat.mod_lt _ (by decide)⟩
  · split at h2
    · rw [List.mem_singleton] at h2
      subst h2
      show 0xf < 0x10
      decide
    · exact absurd h2 (List.not_mem_nil a)

theorem drawRowAcc_inBounds (x y n : Nat) (p : State × List Access) (hx : x < 16)
    (hy : y < 16) (hp : ∀ a ∈ p.2, a.inBounds) :
    ∀ a ∈ (drawRowAcc x y n p).2, a.inBounds := by
  unfold drawRowAcc
  refine foldl_range_inv (fun p b => drawPixelAcc x y n b p)
    (fun _ q => ∀ a ∈ q.2, a.inBounds) _ 8 ?_
    (fun b q _ hq => drawPixelAcc_inBounds x y n b q hx hy hq)
  intro a ha
  rcases List.mem_append.1 ha with h1 | h2
  · exact hp a h1
  · rw [List.mem_singleton] at h2
    subst h2
    show (p.1.I + n) &&& 0xfff < 0x1000
    exact Nat.lt_succ_of_le Nat.and_le_right

theorem drawAcc_inBounds (x y nibble : Nat) (s : State) (hx : x < 16) (hy : y < 16) :
    ∀ a ∈ drawAcc x y nibble s, a.inBounds := by
  unfold drawAcc
  refine foldl_range_inv (fun p n => drawRowAcc x y n p)
    (fun _ q => ∀ a ∈ q.2, a.inBounds) _ nibble ?_
    (fun n q _ hq => drawRowAcc_inBounds x y n q hx hy hq)
  intro a ha
  rw [List.mem_singleton] at ha
  subst ha
  show 0xf < 0x10
  decide

theorem execAcc_inBounds (ins : Instr) (s : State) (hw : ins.WF) (hI : s.I ≤ 0xfff) :
    ∀ a ∈ execAcc ins s, a.inBounds := by
  have hmask : ∀ n, (s.I + n) &&& 0xfff < 0x1000 :=
    fun n => Nat.lt_succ_of_le Nat.and_le_right
  cases ins
  case cls =>
    intro a ha
    simp only [execAcc, List.mem_flatMap, List.mem_map, List.mem_range] at ha
    obtain ⟨row, hrow, col, hcol, rfl⟩ := ha
    exact ⟨hrow, hcol⟩
  case drw x y n => exact drawAcc_inBounds x y n s hw.1 hw.2.1
  case bcd x =>
    intro a ha
    simp only [execAcc, List.mem_cons, List.mem_singleton, List.not_mem_nil, or_false] at ha
    rcases ha with rfl | rfl | rfl | rfl
    · exact Nat.lt_succ_of_le hI
    · exact hw
    · exact hmask 1
    · exact hmask 2
  case store x =>
    intro a ha
    simp only [execAcc, List.mem_flatMap, List.mem_range, List.mem_cons, List.mem_singleton,
      List.not_mem_nil, or_false] at ha
    obtain ⟨i, hi, rfl | rfl⟩ := ha
    · exact hmask i
    · have : x < 16 := hw
      show i < 0x10
      omega
  case load x =>
    intro a ha
    simp only [execAcc, List.mem_flatMap, List.mem_range, List.mem_cons, List.mem_singleton,
      List.not_mem_nil, or_false] at ha
    obtain ⟨i, hi, rfl | rfl⟩ := ha
    · have : x < 16 := hw
      show i < 0x10
      omega
    · exact hmask i
  all_goals
    intro a ha
    first
      | exact absurd ha (List.not_mem_nil a)
      | (simp only [execAcc, List.mem_cons, List.mem_singleton, List.not_mem_nil,
          or_false] at ha
         simp only [Instr.WF] at hw
         rcases ha with rfl | rfl | rfl <;> simp only [Access.inBounds] <;> omega)

/-- C19: with `PC ≤ 0xFFF` and `I ≤ 0xFFF`, every subscript of `mem`, `V` and
`fb` computed during one instruction step (the opcode fetch at `PC` and
`(PC + 1) mod 0x1000` and the unmasked `mem[I]` of `Fx33` included) is within
the bounds of its array, whatever the opcode. -/
theorem step_subscripts_in_bounds (s : State) (op : Nat) (hpc : s.PC ≤ 0xfff)
    (hI : s.I ≤ 0xfff) :
    (∀ a ∈ stepAcc s, a.inBounds) ∧ (∀ a ∈ execAcc (decode op) s, a.inBounds) := by
  refine ⟨fun a ha => ?_, execAcc_inBounds _ s (decode_wf op) hI⟩
  unfold stepAcc at ha
  rcases List.mem_append.1 ha with h1 | h2
  · simp only [List.mem_cons, List.mem_singleton, List.not_mem_nil, or_false] at h1
    rcases h1 with rfl | rfl
    · exact Nat.lt_succ_of_le hpc
    · exact Nat.lt_succ_of_le Nat.and_le_right
  · split at h2
    · exact execAcc_inBounds _ s (decode_wf _) hI a h2
    · exact absurd h2 (List.not_mem_nil a)

/-- C19 at `F033` fetched at `PC = 0xFFF` with `I = 0xFFF`. -/
theorem step_subscripts_in_bounds_witness :
    (∀ a ∈ stepAcc { exState with mem := fun a => if a = 0xfff then 0xF0 else 0x33,
                                  PC := 0xfff, I := 0xfff }, a.inBounds) ∧
    (∀ a ∈ execAcc (decode 0xF033)
        { exState with mem := fun a => if a = 0xfff then 0xF0 else 0x33,
                       PC := 0xfff, I := 0xfff }, a.inBounds) :=
  step_subscripts_in_bounds
    { exState with mem := fun a => if a = 0xfff then 0xF0 else 0x33, PC := 0xfff, I := 0xfff }
    0xF033 (by decide) (by decide)

end Chip8
